import Mathlib

/-!
Shallow embedding of the wasm-smith module generator
(src/crates/wasm-smith/src/lib.rs) and proofs about the properties of its
generation pipeline.

The module-construction pipeline (`ConfiguredModule::build` and the eleven
`arbitrary_*` phases) is translated from the Rust source.  Three collaborators
are not available as source and are modelled from the specification instead,
each marked with a doc comment starting with `Modelled from the spec:`:

* the Randomness Source (the external `arbitrary` crate's `Unstructured`),
  modelled as a finite list of bytes with total draw operations whose
  exhaustion fallbacks follow spec section 2 (booleans default false,
  lengths default 0, integer draws default to the low end of the range);
* the configuration defaults (`config.rs` is not under `src/`);
* the per-function instruction generator (`code_builder.rs` is not under
  `src/`), modelled as a total, deterministic producer of a generated body.

Machine integers are modelled as `Nat`; the byte buffer is a `List Nat` whose
entries are reduced mod 256 at each read.  Fallible draws return `Option`;
`none` corresponds to a surfaced `arbitrary::Error`.
-/

namespace WasmSmith

/-- Byte buffer of the randomness source. -/
abbrev U := List Nat

/-- Generation computations: state-passing over the byte buffer, with
`none` modelling a surfaced error of the `arbitrary` crate. -/
def M (α : Type) : Type := U → Option (α × U)

/-- Monadic unit for `M`. -/
def M.mkPure (a : α) : M α := fun u => some (a, u)

/-- Monadic bind for `M`. -/
def M.mkBind (x : M α) (f : α → M β) : M β := fun u =>
  match x u with
  | none => none
  | some p => f p.1 p.2

instance : Monad M where
  pure := M.mkPure
  bind := M.mkBind

/-- Modelled from the spec: reading one byte of the Randomness Source
(`u8` draws of the external `arbitrary` crate); on exhaustion the value
defaults to 0 and nothing is consumed. -/
def takeByte : M Nat := fun u =>
  match u with
  | [] => some (0, [])
  | b :: r => some (b % 256, r)

/-- Modelled from the spec: boolean draws of the Randomness Source
(low bit of one byte); on exhaustion the value defaults to `false`. -/
def takeBool : M Bool := fun u =>
  match u with
  | [] => some (false, [])
  | b :: r => some (decide (b % 2 = 1), r)

/-- Little-endian value of a byte list (missing bytes read as 0). -/
def leVal : List Nat → Nat
  | [] => 0
  | b :: r => (b % 256) + 256 * leVal r

/-- Modelled from the spec: a fixed-width little-endian integer draw of the
Randomness Source (used for the 4- and 8-byte constant literals); missing
bytes are zero-filled, so the draw is total. -/
def fillBytesNat (k : Nat) : M Nat := fun u =>
  some (leVal (u.take k), u.drop k)

/-- Big-endian accumulation of a byte list. -/
def beVal (l : List Nat) : Nat := l.foldl (fun a b => a * 256 + (b % 256)) 0

/-- Fuelled helper computing the number of base-256 digits of a number. -/
def byteLenAux : Nat → Nat → Nat
  | 0, _ => 0
  | fuel + 1, n => if n = 0 then 0 else byteLenAux fuel (n / 256) + 1

/-- Number of bytes needed to cover a range value, as in the byte-consumption
loop of the `arbitrary` crate's `int_in_range`. -/
def byteLen (n : Nat) : Nat := byteLenAux n n

/-- Modelled from the spec: the bounded integer draw (`Unstructured::int_in_range`
of the external `arbitrary` crate).  An inverted range is the `EmptyChoose`
error; a single-point range consumes nothing; otherwise up to `byteLen`
bytes are folded big-endian and reduced into the range.  On exhaustion the
remaining bytes read as absent, so the result defaults towards `lo`. -/
def intInRange (lo hi : Nat) : M Nat := fun u =>
  if hi < lo then none
  else if lo = hi then some (lo, u)
  else
    let range := hi - lo
    let n := byteLen range
    some (lo + beVal (u.take n) % (range + 1), u.drop n)

/-- Modelled from the spec: uniform choice among the elements of a list
(`Unstructured::choose`); an empty candidate list is the `EmptyChoose`
error. -/
def chooseFrom : List α → M α
  | [] => fun _ => none
  | x :: rest => fun u =>
    match intInRange 0 rest.length u with
    | none => none
    | some p => some ((x :: rest).getD p.1 x, p.2)

/-- Modelled from the spec: the length draw backing byte/string slices
(`Unstructured::arbitrary_len`); the drawn length is clamped to the bytes
remaining and defaults to 0 on exhaustion. -/
def arbitraryByteSize : M Nat := fun u =>
  match u with
  | [] => some (0, [])
  | [_] => some (0, [])
  | b :: r => some (min (b % 256) r.length, r)

/-- Modelled from the spec: `Unstructured::get_bytes`, clamped to the buffer. -/
def getBytes (k : Nat) : M (List Nat) := fun u =>
  some ((u.take k).map (· % 256), u.drop k)

/-- Continuation byte test of the UTF-8 validator. -/
def isCont (b : Nat) : Bool := decide (128 ≤ b) && decide (b ≤ 191)

/-- Length in bytes of the longest valid UTF-8 prefix of a byte list,
mirroring `str::from_utf8`'s `valid_up_to`. -/
def utf8ValidLen : List Nat → Nat
  | [] => 0
  | b :: rest =>
    if b ≤ 0x7F then 1 + utf8ValidLen rest
    else if 0xC2 ≤ b ∧ b ≤ 0xDF then
      match rest with
      | c1 :: rest2 => if isCont c1 then 2 + utf8ValidLen rest2 else 0
      | [] => 0
    else if 0xE0 ≤ b ∧ b ≤ 0xEF then
      match rest with
      | c1 :: c2 :: rest2 =>
        let okc1 :=
          if b = 0xE0 then decide (0xA0 ≤ c1) && decide (c1 ≤ 0xBF)
          else if b = 0xED then decide (0x80 ≤ c1) && decide (c1 ≤ 0x9F)
          else isCont c1
        if okc1 && isCont c2 then 3 + utf8ValidLen rest2 else 0
      | _ => 0
    else if 0xF0 ≤ b ∧ b ≤ 0xF4 then
      match rest with
      | c1 :: c2 :: c3 :: rest2 =>
        let okc1 :=
          if b = 0xF0 then decide (0x90 ≤ c1) && decide (c1 ≤ 0xBF)
          else if b = 0xF4 then decide (0x80 ≤ c1) && decide (c1 ≤ 0x8F)
          else isCont c1
        if okc1 && isCont c2 && isCont c3 then 4 + utf8ValidLen rest2 else 0
      | _ => 0
    else 0

/-- Rust strings of the generator, modelled as their UTF-8 byte lists. -/
abbrev Name := List Nat

/-- Embedding of `limited_string`: draw a clamped length, peek that many
bytes, and keep them all when they are valid UTF-8, otherwise consume and
keep only the longest valid prefix. -/
def limitedString (maxSize : Nat) : M Name := fun u =>
  match arbitraryByteSize u with
  | none => none
  | some p =>
    let size := min p.1 maxSize
    let bytes := (p.2.take size).map (· % 256)
    let v := utf8ValidLen bytes
    if v = bytes.length then some (bytes, p.2.drop size)
    else some (bytes.take v, p.2.drop v)

/-- Modelled from the spec: the element-wise collection draw used by
`Vec<u8> as Arbitrary` (a continue-bit followed by one element byte,
repeated; exhaustion stops the collection). -/
def arbVecU8Core : U → List Nat × U
  | [] => ([], [])
  | b :: u =>
    if b % 2 = 1 then
      match u with
      | [] => ([0], [])
      | e :: u2 =>
        let p := arbVecU8Core u2
        (e % 256 :: p.1, p.2)
    else ([], u)

/-- Monadic wrapper of `arbVecU8Core` (`Vec<u8>::arbitrary`). -/
def vecU8Arbitrary : M (List Nat) := fun u => some (arbVecU8Core u)

/-- Embedding of `arbitrary_vec_u8`: a clamped length draw followed by that
many raw bytes. -/
def arbitraryVecU8 : M (List Nat) := do
  let size ← arbitraryByteSize
  getBytes size

/-- Embedding of the `ValType` enumeration. -/
inductive ValType
  | i32
  | i64
  | f32
  | f64
  | funcRef
  | externRef
deriving DecidableEq, Repr, Inhabited

/-- Embedding of `FuncType`. -/
structure FuncType where
  params : List ValType
  results : List ValType
deriving DecidableEq, Repr, Inhabited

/-- Embedding of `Limits`. -/
structure Limits where
  min : Nat
  max : Option Nat
deriving DecidableEq, Repr, Inhabited

/-- Embedding of `Limits::limited`. -/
def Limits.limited (cap : Nat) : M Limits := do
  let mn ← intInRange 0 cap
  let hasMax ← takeBool
  if hasMax then
    if mn = cap then pure { min := mn, max := some cap }
    else do
      let mx ← intInRange mn cap
      pure { min := mn, max := some mx }
  else
    pure { min := mn, max := none }

/-- Embedding of `TableType`. -/
structure TableType where
  limits : Limits
  elemTy : ValType
deriving DecidableEq, Repr, Inhabited

/-- Embedding of `MemoryType`. -/
structure MemoryType where
  limits : Limits
deriving DecidableEq, Repr, Inhabited

/-- Embedding of `MemoryType::arbitrary` (limits capped at 65536 pages). -/
def memoryTypeArbitrary : M MemoryType := do
  let l ← Limits.limited 65536
  pure { limits := l }

/-- Embedding of `GlobalType`. -/
structure GlobalType where
  valType : ValType
  mutable : Bool
deriving DecidableEq, Repr, Inhabited

/-- Embedding of the `Instruction` enumeration, restricted to the
constant-expression forms the embedded phases produce (the full instruction
set belongs to the code builder, which is modelled separately). -/
inductive Instruction
  | i32Const (v : Nat)
  | i64Const (v : Nat)
  | f32Const (bits : Nat)
  | f64Const (bits : Nat)
  | globalGet (idx : Nat)
  | refNull (ty : ValType)
  | refFunc (idx : Nat)
deriving DecidableEq, Repr, Inhabited

/-- Embedding of `Global`. -/
structure Global where
  ty : GlobalType
  expr : Instruction
deriving DecidableEq, Repr, Inhabited

/-- Embedding of the `Import` enumeration. -/
inductive Import
  | func (tyIdx : Nat)
  | table (ty : TableType)
  | memory (ty : MemoryType)
  | global (ty : GlobalType)
deriving DecidableEq, Repr, Inhabited

/-- Embedding of the `Export` enumeration. -/
inductive Export
  | func (idx : Nat)
  | table (idx : Nat)
  | memory (idx : Nat)
  | global (idx : Nat)
deriving DecidableEq, Repr, Inhabited

/-- Embedding of `ElementKind` (`table = none` is the implicit table 0 of
the MVP encoding). -/
inductive ElementKind
  | passive
  | declared
  | active (table : Option Nat) (offset : Instruction)
deriving DecidableEq, Repr, Inhabited

/-- Embedding of `Elements`. -/
inductive Elements
  | functions (idxs : List Nat)
  | expressions (items : List (Option Nat))
deriving DecidableEq, Repr, Inhabited

/-- Embedding of `ElementSegment`. -/
structure ElementSegment where
  kind : ElementKind
  ty : ValType
  items : Elements
deriving DecidableEq, Repr, Inhabited

/-- Embedding of `Instructions` (a generated body or a raw blob). -/
inductive Instructions
  | generated (ins : List Instruction)
  | arbitraryBlob (bytes : List Nat)
deriving DecidableEq, Repr, Inhabited

/-- Embedding of `Code`. -/
structure Code where
  locals : List ValType
  instructions : Instructions
deriving DecidableEq, Repr, Inhabited

/-- Embedding of `DataSegmentKind`. -/
inductive DataSegmentKind
  | passive
  | active (memoryIndex : Nat) (offset : Instruction)
deriving DecidableEq, Repr, Inhabited

/-- Embedding of `DataSegment`. -/
structure DataSegment where
  kind : DataSegmentKind
  init : List Nat
deriving DecidableEq, Repr, Inhabited

/-- Embedding of the `Config` trait surface: the per-kind bounds and feature
toggles consulted by the generation phases. -/
structure Config where
  maxTypes : Nat
  maxImports : Nat
  maxFuncs : Nat
  maxTables : Nat
  maxMemories : Nat
  maxGlobals : Nat
  maxExports : Nat
  maxElementSegments : Nat
  maxElements : Nat
  maxDataSegments : Nat
  referenceTypesEnabled : Bool
  bulkMemoryEnabled : Bool
deriving DecidableEq, Repr, Inhabited

/-- Modelled from the spec: `DefaultConfig` (config.rs is not under src/).
The spec fixes the memory cap through the single-memory invariant and leaves
the other bounds as fixed defaults; the feature toggles default to off. -/
def defaultConfig : Config where
  maxTypes := 100
  maxImports := 100
  maxFuncs := 100
  maxTables := 1
  maxMemories := 1
  maxGlobals := 100
  maxExports := 100
  maxElementSegments := 100
  maxElements := 100
  maxDataSegments := 100
  referenceTypesEnabled := false
  bulkMemoryEnabled := false

/-- Embedding of the `ConfiguredModule` state (the configuration is passed
separately to each phase). -/
structure Module where
  valtypes : List ValType
  types : List FuncType
  imports : List (Name × Name × Import)
  funcs : List Nat
  tables : List TableType
  memories : List MemoryType
  globals : List Global
  exports : List (Name × Export)
  start : Option Nat
  elems : List ElementSegment
  code : List Code
  data : List DataSegment
deriving DecidableEq, Repr, Inhabited

/-- Embedding of `ConfiguredModule::default()`. -/
def moduleDefault : Module where
  valtypes := []
  types := []
  imports := []
  funcs := []
  tables := []
  memories := []
  globals := []
  exports := []
  start := none
  elems := []
  code := []
  data := []

/-- Embedding of the `func_imports` count. -/
def funcImports (m : Module) : Nat :=
  m.imports.countP (fun e => match e.2.2 with | Import.func _ => true | _ => false)

/-- Embedding of the `table_imports` count. -/
def tableImports (m : Module) : Nat :=
  m.imports.countP (fun e => match e.2.2 with | Import.table _ => true | _ => false)

/-- Embedding of the `memory_imports` count. -/
def memoryImports (m : Module) : Nat :=
  m.imports.countP (fun e => match e.2.2 with | Import.memory _ => true | _ => false)

/-- Embedding of the `global_imports` count. -/
def globalImports (m : Module) : Nat :=
  m.imports.countP (fun e => match e.2.2 with | Import.global _ => true | _ => false)

/-- Total function index space (imported then locally defined). -/
def funcTotal (m : Module) : Nat := funcImports m + m.funcs.length

/-- Total table index space. -/
def tableTotal (m : Module) : Nat := tableImports m + m.tables.length

/-- Total memory index space. -/
def memTotal (m : Module) : Nat := memoryImports m + m.memories.length

/-- Total global index space. -/
def globalTotal (m : Module) : Nat := globalImports m + m.globals.length

/-- Embedding of `arbitrary_loop`: up to `n` iterations, each gated by a
boolean continue draw that defaults to `false` on exhaustion. -/
def arbitraryLoop {σ : Type} : Nat → (σ → M σ) → σ → M σ
  | 0, _, s => pure s
  | n + 1, body, s => do
    let keepGoing ← takeBool
    if keepGoing then do
      let s2 ← body s
      arbitraryLoop n body s2
    else
      pure s

/-- Embedding of `arbitrary_valtype`: a uniform choice from the value-type
universe. -/
def arbitraryValtype (m : Module) : M ValType := chooseFrom m.valtypes

/-- Embedding of `arbitrary_global_type`. -/
def arbitraryGlobalType (m : Module) : M GlobalType := do
  let vt ← arbitraryValtype m
  let mt ← takeBool
  pure { valType := vt, mutable := mt }

/-- Element-type draw of `arbitrary_table_type`: funcref forced when
reference types are enabled, otherwise a uniform choice between funcref and
externref. -/
def arbitraryTableElemTy (cfg : Config) : M ValType :=
  if cfg.referenceTypesEnabled then pure ValType.funcRef
  else chooseFrom [ValType.funcRef, ValType.externRef]

/-- Embedding of `arbitrary_table_type`. -/
def arbitraryTableType (cfg : Config) : M TableType := do
  let ety ← arbitraryTableElemTy cfg
  let lims ← Limits.limited 1000000
  pure { elemTy := ety, limits := lims }

/-- Embedding of `arbitrary_types`: the outer growth loop appends a
`FuncType` whose parameter and result lists are inner growth loops capped
at 20. -/
def arbitraryTypes (cfg : Config) (m : Module) : M Module :=
  arbitraryLoop cfg.maxTypes (fun s => do
    let ps ← arbitraryLoop 20 (fun l => do
      let vt ← arbitraryValtype s
      pure (l ++ [vt])) []
    let rs ← arbitraryLoop 20 (fun l => do
      let vt ← arbitraryValtype s
      pure (l ++ [vt])) []
    pure { s with types := s.types ++ [{ params := ps, results := rs }] }) m

/-- Candidate tags of the per-iteration import choice list. -/
inductive ImportChoice
  | func
  | global
  | memory
  | table
deriving DecidableEq, Repr, Inhabited

/-- Stable part of the import choice list (`Func` only when at least one
type exists, `Global` always), computed once before the loop. -/
def importStableChoices (m : Module) : List ImportChoice :=
  (if m.types = [] then [] else [ImportChoice.func]) ++ [ImportChoice.global]

/-- Per-iteration import choice list: the stable choices plus `Memory`
while the memory-import count is under the configured cap and `Table`
while the table-import count is under its cap. -/
def importIterChoices (cfg : Config) (stable : List ImportChoice) (s : Module) :
    List ImportChoice :=
  stable
    ++ (if memoryImports s < cfg.maxMemories then [ImportChoice.memory] else [])
    ++ (if tableImports s < cfg.maxTables then [ImportChoice.table] else [])

/-- Dispatch of one chosen import producer, mirroring the call of the
chosen function pointer in `arbitrary_imports`. -/
def importChoiceRun (cfg : Config) (s : Module) : ImportChoice → M Import
  | ImportChoice.func => do
    let i ← intInRange 0 (s.types.length - 1)
    pure (Import.func i)
  | ImportChoice.global => do
    let g ← arbitraryGlobalType s
    pure (Import.global g)
  | ImportChoice.memory => do
    let mt ← memoryTypeArbitrary
    pure (Import.memory mt)
  | ImportChoice.table => do
    let tt ← arbitraryTableType cfg
    pure (Import.table tt)

/-- Embedding of `arbitrary_imports`.  The `choices.pop()` performed in the
source after a memory import is superseded by the truncation at the top of
the next iteration, so the per-iteration list is exactly
`importIterChoices`. -/
def arbitraryImports (cfg : Config) (m : Module) : M Module :=
  let stable := importStableChoices m
  arbitraryLoop cfg.maxImports (fun s => do
    let cs := importIterChoices cfg stable s
    let moduleName ← limitedString 1000
    let fieldName ← limitedString 1000
    let c ← chooseFrom cs
    let imp ← importChoiceRun cfg s c
    pure { s with imports := s.imports ++ [(moduleName, fieldName, imp)] }) m

/-- Embedding of `arbitrary_funcs`: skipped when no type exists, otherwise a
growth loop appending a uniformly chosen existing type index. -/
def arbitraryFuncs (cfg : Config) (m : Module) : M Module :=
  if m.types = [] then pure m
  else
    arbitraryLoop cfg.maxFuncs (fun s => do
      let ty ← intInRange 0 (s.types.length - 1)
      pure { s with funcs := s.funcs ++ [ty] }) m

/-- Embedding of `arbitrary_tables`: the loop bound is the configured
maximum minus the already-imported table count. -/
def arbitraryTables (cfg : Config) (m : Module) : M Module :=
  arbitraryLoop (cfg.maxTables - tableImports m) (fun s => do
    let tt ← arbitraryTableType cfg
    pure { s with tables := s.tables ++ [tt] }) m

/-- Embedding of `arbitrary_memories`: the loop bound is the configured
maximum minus the already-imported memory count. -/
def arbitraryMemories (cfg : Config) (m : Module) : M Module :=
  arbitraryLoop (cfg.maxMemories - memoryImports m) (fun s => do
    let mt ← memoryTypeArbitrary
    pure { s with memories := s.memories ++ [mt] }) m

/-- Indices (in the global index space) of the imported globals satisfying a
predicate, walking the import list with a running global counter exactly as
the source loops do. -/
def importedGlobalIdxsAux (p : GlobalType → Bool) :
    List (Name × Name × Import) → Nat → List Nat
  | [], _ => []
  | e :: rest, k =>
    match e.2.2 with
    | Import.global g =>
      (if p g then [k] else []) ++ importedGlobalIdxsAux p rest (k + 1)
    | _ => importedGlobalIdxsAux p rest k

/-- Imported-global indices of a module satisfying a predicate. -/
def importedGlobalIdxs (m : Module) (p : GlobalType → Bool) : List Nat :=
  importedGlobalIdxsAux p m.imports 0

/-- Candidate tags for a global's constant initializer: the type-directed
literal, or a read of an eligible earlier imported global. -/
inductive GlobalInitChoice
  | literal
  | importedGlobal (idx : Nat)
deriving DecidableEq, Repr, Inhabited

/-- Embedding of the type-directed literal closure of `arbitrary_globals`
(the first pushed initializer producer): a constant of the drawn value type,
where a funcref may become a `ref.func` of a locally-declared function when
one exists and a coin flip prefers it. -/
def arbitraryConstLiteral (numFuncs : Nat) (vt : ValType) : M Instruction :=
  match vt with
  | ValType.i32 => do
    let v ← fillBytesNat 4
    pure (Instruction.i32Const v)
  | ValType.i64 => do
    let v ← fillBytesNat 8
    pure (Instruction.i64Const v)
  | ValType.f32 => do
    let v ← fillBytesNat 4
    pure (Instruction.f32Const v)
  | ValType.f64 => do
    let v ← fillBytesNat 8
    pure (Instruction.f64Const v)
  | ValType.externRef => pure (Instruction.refNull ValType.externRef)
  | ValType.funcRef =>
    if 0 < numFuncs then do
      let flip ← takeBool
      if flip then do
        let f ← intInRange 0 (numFuncs - 1)
        pure (Instruction.refFunc f)
      else
        pure (Instruction.refNull ValType.funcRef)
    else
      pure (Instruction.refNull ValType.funcRef)

/-- Dispatch of one chosen global-initializer producer of
`arbitrary_globals`. -/
def globalInitRun (numFuncs : Nat) (vt : ValType) : GlobalInitChoice → M Instruction
  | GlobalInitChoice.literal => arbitraryConstLiteral numFuncs vt
  | GlobalInitChoice.importedGlobal i => pure (Instruction.globalGet i)

/-- Embedding of `arbitrary_globals`: each iteration draws a global type,
rebuilds the initializer candidate list (literal first, then the reads of
prior immutable imported globals of the same value type), chooses uniformly
and applies the chosen producer. -/
def arbitraryGlobals (cfg : Config) (m : Module) : M Module :=
  arbitraryLoop cfg.maxGlobals (fun s => do
    let gt ← arbitraryGlobalType s
    let numFuncs := s.funcs.length
    let cs := GlobalInitChoice.literal ::
      (importedGlobalIdxs s
        (fun g => !g.mutable && decide (g.valType = gt.valType))).map
        GlobalInitChoice.importedGlobal
    let c ← chooseFrom cs
    let expr ← globalInitRun numFuncs gt.valType c
    pure { s with globals := s.globals ++ [{ ty := gt, expr := expr }] }) m

/-- Candidate tags of the export kind list. -/
inductive ExportChoice
  | func
  | table
  | memory
  | global
deriving DecidableEq, Repr, Inhabited

/-- Embedding of the export candidate kind list built once at the top of
`arbitrary_exports`: `Func` when the locally-defined function list is
non-empty, `Table`/`Memory` when at least one instance (imported or local)
exists, `Global` when the locally-defined global list is non-empty. -/
def exportKindChoices (m : Module) : List ExportChoice :=
  (if m.funcs = [] then [] else [ExportChoice.func])
    ++ (if 0 < tableImports m ∨ m.tables ≠ [] then [ExportChoice.table] else [])
    ++ (if 0 < memoryImports m ∨ m.memories ≠ [] then [ExportChoice.memory] else [])
    ++ (if m.globals = [] then [] else [ExportChoice.global])

/-- Fuelled helper for the decimal digits of a number; the fuel `n` always
suffices because `n / 10 < n` for positive `n`. -/
def natDecimalBytesAux : Nat → Nat → List Nat
  | 0, n => [48 + n % 10]
  | fuel + 1, n =>
    if n < 10 then [48 + n]
    else natDecimalBytesAux fuel (n / 10) ++ [48 + n % 10]

/-- Decimal digit bytes of a number (the ASCII bytes `format!("{}", n)`
appends); always non-empty. -/
def natDecimalBytes (n : Nat) : List Nat := natDecimalBytesAux n n

/-- Fuelled embedding of the deduplication `while` loop of
`arbitrary_exports`: while the name is already stored, append the decimal
bytes of the current name-set size. -/
def uniquifyAux (suf : Name) : Nat → Name → List Name → Name
  | 0, name, _ => name
  | fuel + 1, name, names =>
    if name ∈ names then uniquifyAux suf fuel (name ++ suf) names else name

/-- Name deduplication of `arbitrary_exports`; the fuel
`names.length + 1` is proved sufficient below (each append strictly grows
the name, so at most `names.length` collisions can occur). -/
def uniquify (name : Name) (names : List Name) : Name :=
  uniquifyAux (natDecimalBytes names.length) (names.length + 1) name names

/-- Dispatch of one chosen export producer of `arbitrary_exports`: an index
uniform over all existing instances (imported plus local) of the chosen
kind. -/
def exportChoiceRun (s : Module) : ExportChoice → M Export
  | ExportChoice.func => do
    let i ← intInRange 0 (funcImports s + s.funcs.length - 1)
    pure (Export.func i)
  | ExportChoice.table => do
    let i ← intInRange 0 (tableImports s + s.tables.length - 1)
    pure (Export.table i)
  | ExportChoice.memory => do
    let i ← intInRange 0 (memoryImports s + s.memories.length - 1)
    pure (Export.memory i)
  | ExportChoice.global => do
    let i ← intInRange 0 (globalImports s + s.globals.length - 1)
    pure (Export.global i)

/-- Embedding of `arbitrary_exports`: the kind list is built once; when it
is empty the phase is skipped; otherwise each iteration draws a name,
deduplicates it against the stored name set, inserts it, and draws a kind
plus an index uniform over all existing instances of that kind. -/
def arbitraryExports (cfg : Config) (m : Module) : M Module :=
  let cs := exportKindChoices m
  if cs = [] then pure m
  else do
    let r ← arbitraryLoop cfg.maxExports (fun (st : List Name × Module) => do
      let names := st.1
      let s := st.2
      let nm0 ← limitedString 1000
      let nm := uniquify nm0 names
      let names2 := nm :: names
      let c ← chooseFrom cs
      let ex ← exportChoiceRun s c
      pure (names2, { s with exports := s.exports ++ [(nm, ex)] })) ([], m)
    pure r.2

/-- Start-function candidates contributed by the imported functions, with
the function-index counter running over func imports only. -/
def startChoicesImports (types : List FuncType) :
    List (Name × Name × Import) → Nat → List Nat
  | [], _ => []
  | e :: rest, k =>
    match e.2.2 with
    | Import.func ty =>
      let ft := types.getD ty { params := [], results := [] }
      (if ft.params = [] ∧ ft.results = [] then [k] else [])
        ++ startChoicesImports types rest (k + 1)
    | _ => startChoicesImports types rest k

/-- Start-function candidates contributed by the locally-defined functions,
continuing the function-index counter. -/
def startChoicesFuncs (types : List FuncType) : List Nat → Nat → List Nat
  | [], _ => []
  | ty :: rest, k =>
    let ft := types.getD ty { params := [], results := [] }
    (if ft.params = [] ∧ ft.results = [] then [k] else [])
      ++ startChoicesFuncs types rest (k + 1)

/-- Candidate start functions: every function (imported or local) whose type
has no parameters and no results. -/
def startChoices (m : Module) : List Nat :=
  startChoicesImports m.types m.imports 0
    ++ startChoicesFuncs m.types m.funcs (funcImports m)

/-- Embedding of `arbitrary_start`: when the candidate set is non-empty, a
coin flip decides whether a uniformly chosen candidate becomes the start
function (the flip is drawn only when candidates exist). -/
def arbitraryStart (m : Module) : M Module := do
  let cs := startChoices m
  if cs ≠ [] then do
    let flip ← takeBool
    if flip then do
      let f ← chooseFrom cs
      pure { m with start := some f }
    else
      pure m
  else
    pure m

/-- Element types of all tables, imported tables first. -/
def tableTys (m : Module) : List ValType :=
  (m.imports.filterMap (fun e =>
    match e.2.2 with
    | Import.table t => some t.elemTy
    | _ => none))
    ++ m.tables.map (fun t => t.elemTy)

/-- Imported immutable i32 globals usable in offset expressions. -/
def offsetGlobalChoices (m : Module) : List Nat :=
  importedGlobalIdxs m (fun g => !g.mutable && decide (g.valType = ValType.i32))

/-- Embedding of the `arbitrary_offset` helper closure of `arbitrary_elems`:
an eligible imported-global read when one exists and a coin flip prefers it,
otherwise an i32 constant. -/
def arbitraryOffset (ogc : List Nat) : M Instruction := do
  if ogc ≠ [] then
    let flip ← takeBool
    if flip then do
      let g ← chooseFrom ogc
      pure (Instruction.globalGet g)
    else do
      let v ← fillBytesNat 4
      pure (Instruction.i32Const v)
  else do
    let v ← fillBytesNat 4
    pure (Instruction.i32Const v)

/-- Candidate tags of the element-segment shape list. -/
inductive ElemChoice
  | mvpActive
  | anyTableActive
  | passiveFunc
  | passiveExternRef
  | declaredFunc
  | declaredExternRef
deriving DecidableEq, Repr, Inhabited

/-- Embedding of the element-segment shape list of `arbitrary_elems`: the
MVP active form when table 0 exists and is funcref-typed; the
active-into-any-table form and the four passive/declared forms only with
reference types enabled. -/
def elemChoices (cfg : Config) (tys : List ValType) : List ElemChoice :=
  (if tys ≠ [] ∧ tys.getD 0 ValType.funcRef = ValType.funcRef
    then [ElemChoice.mvpActive] else [])
    ++ (if tys ≠ [] ∧ cfg.referenceTypesEnabled then [ElemChoice.anyTableActive] else [])
    ++ (if cfg.referenceTypesEnabled then
          [ElemChoice.passiveFunc, ElemChoice.passiveExternRef,
           ElemChoice.declaredFunc, ElemChoice.declaredExternRef]
        else [])

/-- Dispatch of one chosen element-segment shape producer of
`arbitrary_elems`: the resulting segment kind and element type. -/
def elemChoiceRun (ogc : List Nat) (tys : List ValType) :
    ElemChoice → M (ElementKind × ValType)
  | ElemChoice.mvpActive => do
    let off ← arbitraryOffset ogc
    pure (ElementKind.active none off, tys.getD 0 ValType.funcRef)
  | ElemChoice.anyTableActive => do
    let i ← intInRange 0 (tys.length - 1)
    let off ← arbitraryOffset ogc
    pure (ElementKind.active (some i) off, tys.getD i ValType.funcRef)
  | ElemChoice.passiveFunc => pure (ElementKind.passive, ValType.funcRef)
  | ElemChoice.passiveExternRef => pure (ElementKind.passive, ValType.externRef)
  | ElemChoice.declaredFunc => pure (ElementKind.declared, ValType.funcRef)
  | ElemChoice.declaredExternRef => pure (ElementKind.declared, ValType.externRef)

/-- Payload-form draw of `arbitrary_elems`: the expressions form is forced
for externref segments, a coin flip with reference types enabled, and never
available otherwise. -/
def elemExprFormDraw (cfg : Config) (ty : ValType) : M Bool :=
  if ty = ValType.externRef then pure true
  else if cfg.referenceTypesEnabled then takeBool
  else pure false

/-- One entry of the expressions payload: null for externref segments or
when no function exists, otherwise a coin flip between null and a uniformly
chosen function index. -/
def elemItemDraw (ty : ValType) (funcMax : Nat) : M (Option Nat) :=
  if ty = ValType.externRef ∨ funcMax = 0 then pure none
  else do
    let flip ← takeBool
    if flip then pure none
    else do
      let f ← intInRange 0 (funcMax - 1)
      pure (some f)

/-- Payload of one element segment: a growth loop of expression entries, or
a growth loop of function indices (empty without drawing when no function
exists). -/
def elemItemsRun (cfg : Config) (funcMax : Nat) (ty : ValType)
    (exprForm : Bool) : M Elements :=
  if exprForm then do
    let init ← arbitraryLoop cfg.maxElements (fun (l : List (Option Nat)) => do
      let e ← elemItemDraw ty funcMax
      pure (l ++ [e])) []
    pure (Elements.expressions init)
  else
    if 0 < funcMax then do
      let init ← arbitraryLoop cfg.maxElements (fun (l : List Nat) => do
        let f ← intInRange 0 (funcMax - 1)
        pure (l ++ [f])) []
      pure (Elements.functions init)
    else
      pure (Elements.functions [])

/-- Embedding of `arbitrary_elems`. -/
def arbitraryElems (cfg : Config) (m : Module) : M Module :=
  let funcMax := funcImports m + m.funcs.length
  let tys := tableTys m
  let ogc := offsetGlobalChoices m
  let cs := elemChoices cfg tys
  if cs = [] then pure m
  else
    arbitraryLoop cfg.maxElementSegments (fun s => do
      let c ← chooseFrom cs
      let kt ← elemChoiceRun ogc tys c
      let exprForm ← elemExprFormDraw cfg kt.2
      let items ← elemItemsRun cfg funcMax kt.2 exprForm
      pure { s with elems := s.elems ++ [{ kind := kt.1, ty := kt.2, items := items }] }) m

/-- Offset generators of `arbitrary_data` (`none` is the i32-constant
literal, `some g` the read of imported immutable i32 global `g`); built
lazily on the first iteration in the source, which is equivalent to
computing it up front because the import list no longer changes. -/
def dataOffsetChoices (m : Module) : List (Option Nat) :=
  none :: (importedGlobalIdxs m
    (fun g => !g.mutable && decide (g.valType = ValType.i32))).map some

/-- Passive-versus-active decision of `arbitrary_data`: forced passive with
bulk memory and no memory, a coin flip with bulk memory and a memory, never
passive without bulk memory. -/
def dataPassiveDraw (cfg : Config) (memories : Nat) : M Bool :=
  if cfg.bulkMemoryEnabled then
    if memories = 0 then pure true else takeBool
  else
    pure false

/-- Offset produced by one chosen data-offset generator (`none` is the
i32-constant literal, `some g` the read of imported global `g`). -/
def dataOffsetRun : Option Nat → M Instruction
  | none => do
    let v ← fillBytesNat 4
    pure (Instruction.i32Const v)
  | some g => pure (Instruction.globalGet g)

/-- Kind of one data segment: passive when the passive decision fired,
otherwise active with a generated offset and a uniformly chosen memory
index. -/
def dataKindRun (cs : List (Option Nat)) (memories : Nat)
    (passiveChoice : Bool) : M DataSegmentKind :=
  if passiveChoice then pure DataSegmentKind.passive
  else do
    let c ← chooseFrom cs
    let off ← dataOffsetRun c
    let mi ← intInRange 0 (memories - 1)
    pure (DataSegmentKind.active mi off)

/-- Embedding of `arbitrary_data`: skipped entirely when no memory exists
and bulk memory is disabled; a segment is passive when bulk memory is
enabled and either no memory exists or a coin flip prefers it, active
otherwise. -/
def arbitraryData (cfg : Config) (m : Module) : M Module :=
  let memories := m.memories.length + memoryImports m
  if memories = 0 ∧ cfg.bulkMemoryEnabled = false then pure m
  else
    let cs := dataOffsetChoices m
    arbitraryLoop cfg.maxDataSegments (fun s => do
      let passiveChoice ← dataPassiveDraw cfg memories
      let kind ← dataKindRun cs memories passiveChoice
      let init ← vecU8Arbitrary
      pure { s with data := s.data ++ [{ kind := kind, init := init }] }) m

/-- Modelled from the spec: the Code Builder (code_builder.rs is not under
src/).  Per spec section 4.4 it always yields a syntactically complete
generated body and is total and deterministic over the byte buffer; those
are the only properties any claim below relies on, so it is modelled as
returning an empty generated sequence and consuming no bytes. -/
def codeBuilderGenerate (ty : FuncType) (locals : List ValType) :
    M (List Instruction) :=
  pure []

/-- Embedding of `arbitrary_locals` (growth loop capped at 100). -/
def arbitraryLocals (m : Module) : M (List ValType) :=
  arbitraryLoop 100 (fun l => do
    let vt ← arbitraryValtype m
    pure (l ++ [vt])) []

/-- Embedding of `arbitrary_func_body`: locals first, then (in the
may-be-invalid mode only) a coin flip may substitute a raw byte blob for the
generated body. -/
def arbitraryFuncBody (allowInvalid : Bool) (m : Module) (ty : FuncType) : M Code := do
  let locals ← arbitraryLocals m
  if allowInvalid then do
    let flip ← takeBool
    if flip then do
      let bytes ← arbitraryVecU8
      pure { locals := locals, instructions := Instructions.arbitraryBlob bytes }
    else do
      let ins ← codeBuilderGenerate ty locals
      pure { locals := locals, instructions := Instructions.generated ins }
  else do
    let ins ← codeBuilderGenerate ty locals
    pure { locals := locals, instructions := Instructions.generated ins }

/-- Bodies for the declared functions in declaration order. -/
def codeForFuncs (allowInvalid : Bool) (m : Module) : List Nat → M (List Code)
  | [] => pure []
  | ty :: rest => do
    let ft := m.types.getD ty { params := [], results := [] }
    let c ← arbitraryFuncBody allowInvalid m ft
    let cs ← codeForFuncs allowInvalid m rest
    pure (c :: cs)

/-- Embedding of `arbitrary_code`. -/
def arbitraryCode (allowInvalid : Bool) (m : Module) : M Module := do
  let code ← codeForFuncs allowInvalid m m.funcs
  pure { m with code := code }

/-- Value-type universe seeding of `build`: the four numeric types always,
the two reference types only with reference types enabled (externref pushed
before funcref, as in the source). -/
def seedValtypes (cfg : Config) : Module :=
  { moduleDefault with
    valtypes := [ValType.i32, ValType.i64, ValType.f32, ValType.f64]
      ++ (if cfg.referenceTypesEnabled then [ValType.externRef, ValType.funcRef] else []) }

/-- Embedding of `ConfiguredModule::build` (after the configuration has been
drawn): the eleven phases in source order. -/
def build (cfg : Config) (allowInvalid : Bool) : M Module :=
  arbitraryTypes cfg (seedValtypes cfg) >>= fun m1 =>
  arbitraryImports cfg m1 >>= fun m2 =>
  arbitraryFuncs cfg m2 >>= fun m3 =>
  arbitraryTables cfg m3 >>= fun m4 =>
  arbitraryMemories cfg m4 >>= fun m5 =>
  arbitraryGlobals cfg m5 >>= fun m6 =>
  arbitraryExports cfg m6 >>= fun m7 =>
  arbitraryStart m7 >>= fun m8 =>
  arbitraryElems cfg m8 >>= fun m9 =>
  arbitraryData cfg m9 >>= fun m10 =>
  arbitraryCode allowInvalid m10

/-- Embedding of `<Module as Arbitrary>::arbitrary` (the `DefaultConfig`
draw consumes no bytes, the build runs in valid mode). -/
def moduleArbitrary : M Module := build defaultConfig false

/-- Embedding of `<MaybeInvalidModule as Arbitrary>::arbitrary`. -/
def maybeInvalidModuleArbitrary : M Module := build defaultConfig true

/-- Name with `k` copies of a suffix appended, mirroring `k` passes of the
export-name deduplication loop. -/
def appendCopies (name suf : Name) : Nat → Name
  | 0 => name
  | k + 1 => appendCopies (name ++ suf) suf k

/-- Bound statement for a stored export index: strictly below the total
(imported plus defined) count of the referenced entity kind. -/
def exportBound (m : Module) : Export → Prop
  | Export.func i => i < funcTotal m
  | Export.table i => i < tableTotal m
  | Export.memory i => i < memTotal m
  | Export.global i => i < globalTotal m

/-- Bound statement for a constant-expression instruction: any `global.get`
it contains references a global index strictly below the total count. -/
def globalGetBound (m : Module) (ins : Instruction) : Prop :=
  ∀ i, ins = Instruction.globalGet i → i < globalTotal m

/-- Bound statement for an element segment: every stored function index is
strictly below the total function count and any active offset satisfies the
global.get bound. -/
def elemSegBound (m : Module) (seg : ElementSegment) : Prop :=
  (∀ fs, seg.items = Elements.functions fs → ∀ i ∈ fs, i < funcTotal m) ∧
  (∀ es, seg.items = Elements.expressions es →
    ∀ o ∈ es, ∀ i, o = some i → i < funcTotal m) ∧
  (∀ t off, seg.kind = ElementKind.active t off → globalGetBound m off)

/-- Bound statement for a data segment: an active segment's memory index is
strictly below the total memory count and its offset satisfies the
global.get bound. -/
def dataSegBound (m : Module) (d : DataSegment) : Prop :=
  ∀ mi off, d.kind = DataSegmentKind.active mi off →
    mi < memTotal m ∧ globalGetBound m off

/-- The stored-index invariant of the spec: every stored index named by the
claim is strictly below the total count of its entity kind. -/
def indexInvariant (m : Module) : Prop :=
  (∀ t ∈ m.funcs, t < m.types.length) ∧
  (∀ e ∈ m.exports, exportBound m e.2) ∧
  (∀ f, m.start = some f → f < funcTotal m) ∧
  (∀ g ∈ m.globals, globalGetBound m g.expr) ∧
  (∀ seg ∈ m.elems, elemSegBound m seg) ∧
  (∀ d ∈ m.data, dataSegBound m d)

/-- The data-segment discipline of the spec: passive only with bulk memory
enabled, never active without a memory, and no segments at all when bulk
memory is off and no memory exists. -/
def dataInvariant (cfg : Config) (m : Module) : Prop :=
  (∀ d ∈ m.data,
    (memTotal m = 0 → d.kind = DataSegmentKind.passive) ∧
    (d.kind = DataSegmentKind.passive → cfg.bulkMemoryEnabled = true)) ∧
  (cfg.bulkMemoryEnabled = false → memTotal m = 0 → m.data = [])

/-- The module produced by a run over the empty byte buffer (under the
default configuration every growth loop stops immediately). -/
def emptyBuildModule : Module :=
  { moduleDefault with
    valtypes := [ValType.i32, ValType.i64, ValType.f32, ValType.f64] }

/-- Byte buffer driving the generator to one imported function and no local
function: one empty function type, one function import of it, everything
else declined. -/
def importOnlyFuncBytes : U := [1, 0, 0, 0, 1, 0, 0, 0, 0, 0, 0, 0, 0, 0]

/-- Module generated from `importOnlyFuncBytes`. -/
def importOnlyFuncModule : Module :=
  { emptyBuildModule with
    types := [{ params := [], results := [] }],
    imports := [([], [], Import.func 0)] }

/-- Default configuration with bulk memory switched on. -/
def bulkConfig : Config := { defaultConfig with bulkMemoryEnabled := true }

/-- Default configuration with reference types switched on. -/
def refConfig : Config := { defaultConfig with referenceTypesEnabled := true }

/-- Byte buffer producing one data segment under `bulkConfig` while no
memory exists. -/
def passiveDataBytes : U := [0, 0, 0, 0, 0, 1, 0, 0]

/-- Module generated from `passiveDataBytes` under `bulkConfig`: a single
passive data segment. -/
def passiveDataModule : Module :=
  { emptyBuildModule with
    data := [{ kind := DataSegmentKind.passive, init := [] }] }

/-- Byte buffer producing two exports whose drawn names collide (both draw
the one-byte name 65). -/
def exportCollisionBytes : U :=
  [1, 0, 0, 0, 0, 1, 0, 0, 0, 0, 1, 1, 65, 1, 1, 65, 0, 0, 0]

/-- Module generated from `exportCollisionBytes`: the second export's stored
name carries the numeric suffix 49 (the digit 1). -/
def exportCollisionModule : Module :=
  { emptyBuildModule with
    types := [{ params := [], results := [] }],
    funcs := [0],
    exports := [([65], Export.func 0), ([65, 49], Export.func 0)],
    code := [{ locals := [], instructions := Instructions.generated [] }] }

/-! Infrastructure lemmas about the generation monad and the draw
primitives. -/

theorem pure_run {α : Type} (a : α) (u : U) : (pure a : M α) u = some (a, u) := rfl

theorem bind_eq_some {α β : Type} {x : M α} {f : α → M β} {u : U} {r : β × U} :
    (x >>= f) u = some r ↔ ∃ a v, x u = some (a, v) ∧ f a v = some r := by
  show M.mkBind x f u = some r ↔ _
  unfold M.mkBind
  rcases h : x u with _ | p
  · simp
  · simp only [h, Option.some.injEq]
    constructor
    · intro hf
      exact ⟨p.1, p.2, rfl, hf⟩
    · rintro ⟨a, v, hav, hf⟩
      cases hav
      exact hf

theorem bind_total {α β : Type} {x : M α} {f : α → M β} {u : U}
    (hx : ∃ r, x u = some r)
    (hf : ∀ a v, x u = some (a, v) → ∃ r, f a v = some r) :
    ∃ r, (x >>= f) u = some r := by
  obtain ⟨⟨a, v⟩, hx⟩ := hx
  obtain ⟨r, hr⟩ := hf a v hx
  exact ⟨r, bind_eq_some.mpr ⟨a, v, hx, hr⟩⟩

theorem takeBool_run (u : U) : ∃ r, takeBool u = some r := by
  cases u <;> exact ⟨_, rfl⟩

theorem takeByte_run (u : U) : ∃ r, takeByte u = some r := by
  cases u <;> exact ⟨_, rfl⟩

theorem fillBytesNat_run (k : Nat) (u : U) : ∃ r, fillBytesNat k u = some r :=
  ⟨_, rfl⟩

theorem getBytes_run (k : Nat) (u : U) : ∃ r, getBytes k u = some r :=
  ⟨_, rfl⟩

theorem vecU8Arbitrary_run (u : U) : ∃ r, vecU8Arbitrary u = some r :=
  ⟨_, rfl⟩

theorem arbitraryByteSize_run (u : U) : ∃ r, arbitraryByteSize u = some r := by
  rcases u with _ | ⟨b, _ | ⟨c, r⟩⟩ <;> exact ⟨_, rfl⟩

theorem intInRange_bounds {lo hi : Nat} {u : U} {r : Nat × U}
    (h : intInRange lo hi u = some r) : lo ≤ r.1 ∧ r.1 ≤ hi := by
  unfold intInRange at h
  by_cases h1 : hi < lo
  · rw [if_pos h1] at h
    cases h
  · rw [if_neg h1] at h
    by_cases h2 : lo = hi
    · rw [if_pos h2] at h
      cases h
      subst h2
      exact ⟨Nat.le_refl _, Nat.le_refl _⟩
    · rw [if_neg h2] at h
      cases h
      have hm : beVal (u.take (byteLen (hi - lo))) % (hi - lo + 1) < hi - lo + 1 :=
        Nat.mod_lt _ (Nat.succ_pos _)
      constructor
      · exact Nat.le_add_right _ _
      · omega

theorem intInRange_total {lo hi : Nat} (h : lo ≤ hi) (u : U) :
    ∃ r, intInRange lo hi u = some r := by
  unfold intInRange
  rw [if_neg (by omega)]
  by_cases h2 : lo = hi
  · rw [if_pos h2]
    exact ⟨_, rfl⟩
  · rw [if_neg h2]
    exact ⟨_, rfl⟩

theorem list_getD_mem {α : Type} {l : List α} {d : α} (hd : d ∈ l) (i : Nat) :
    l.getD i d ∈ l := by
  unfold List.getD
  cases h : l.get? i with
  | none => simpa using hd
  | some a =>
    have := List.get?_mem h
    simpa using this

theorem chooseFrom_total {α : Type} {xs : List α} (h : xs ≠ []) (u : U) :
    ∃ r, chooseFrom xs u = some r := by
  cases xs with
  | nil => exact absurd rfl h
  | cons x rest =>
    obtain ⟨p, hp⟩ := intInRange_total (Nat.zero_le rest.length) u
    exact ⟨((x :: rest).getD p.1 x, p.2), by simp only [chooseFrom, hp]⟩

theorem chooseFrom_mem {α : Type} {xs : List α} {u : U} {r : α × U}
    (h : chooseFrom xs u = some r) : r.1 ∈ xs := by
  cases xs with
  | nil => cases h
  | cons x rest =>
    simp only [chooseFrom] at h
    cases hir : intInRange 0 rest.length u with
    | none => rw [hir] at h; cases h
    | some p =>
      rw [hir] at h
      cases h
      exact list_getD_mem (List.mem_cons_self x rest) p.1

theorem limitedString_run (n : Nat) (u : U) : ∃ r, limitedString n u = some r := by
  obtain ⟨p, hp⟩ := arbitraryByteSize_run u
  unfold limitedString
  rw [hp]
  dsimp only
  split <;> exact ⟨_, rfl⟩

theorem arbitraryVecU8_run (u : U) : ∃ r, arbitraryVecU8 u = some r := by
  unfold arbitraryVecU8
  exact bind_total (arbitraryByteSize_run u) (fun a v _ => getBytes_run a v)

/-! Lemmas about the growth-loop primitive. -/

theorem arbitraryLoop_induct {σ : Type} (P : σ → Prop) (body : σ → M σ)
    (hstep : ∀ s u r, P s → body s u = some r → P r.1) :
    ∀ n s u r, P s → arbitraryLoop n body s u = some r → P r.1 := by
  intro n
  induction n with
  | zero =>
    intro s u r hP h
    rw [arbitraryLoop, pure_run] at h
    cases h
    exact hP
  | succ n ih =>
    intro s u r hP h
    rw [arbitraryLoop, bind_eq_some] at h
    obtain ⟨b, v, hb, hrest⟩ := h
    cases b with
    | false =>
      simp only [Bool.false_eq_true, if_false, pure_run] at hrest
      cases hrest
      exact hP
    | true =>
      simp only [if_true, bind_eq_some] at hrest
      obtain ⟨s2, w, hs2, hloop⟩ := hrest
      exact ih s2 w r (hstep s v (s2, w) hP hs2) hloop

theorem arbitraryLoop_total {σ : Type} (P : σ → Prop) (body : σ → M σ)
    (hstep : ∀ s u r, P s → body s u = some r → P r.1)
    (htot : ∀ s u, P s → ∃ r, body s u = some r) :
    ∀ n s u, P s → ∃ r, arbitraryLoop n body s u = some r := by
  intro n
  induction n with
  | zero =>
    intro s u hP
    exact ⟨(s, u), rfl⟩
  | succ n ih =>
    intro s u hP
    rw [arbitraryLoop]
    refine bind_total (takeBool_run u) ?_
    intro b v _
    cases b with
    | false =>
      simp only [Bool.false_eq_true, if_false]
      exact ⟨(s, v), rfl⟩
    | true =>
      simp only [if_true]
      refine bind_total (htot s v hP) ?_
      intro s2 w hs2
      exact ih s2 w (hstep s v (s2, w) hP hs2)

theorem arbitraryLoop_growth {σ : Type} (g : σ → Nat) (body : σ → M σ)
    (hstep : ∀ s u r, body s u = some r → g r.1 ≤ g s + 1) :
    ∀ n s u r, arbitraryLoop n body s u = some r → g r.1 ≤ g s + n := by
  intro n
  induction n with
  | zero =>
    intro s u r h
    rw [arbitraryLoop, pure_run] at h
    cases h
    exact Nat.le_refl _
  | succ n ih =>
    intro s u r h
    rw [arbitraryLoop, bind_eq_some] at h
    obtain ⟨b, v, hb, hrest⟩ := h
    cases b with
    | false =>
      simp only [Bool.false_eq_true, if_false, pure_run] at hrest
      cases hrest
      exact Nat.le_add_right _ _
    | true =>
      simp only [if_true, bind_eq_some] at hrest
      obtain ⟨s2, w, hs2, hloop⟩ := hrest
      have h1 : g s2 ≤ g s + 1 := hstep s v (s2, w) hs2
      have h2 := ih s2 w r hloop
      omega

/-! Lemmas about export-name deduplication. -/

theorem natDecimalBytesAux_ne_nil (fuel n : Nat) : natDecimalBytesAux fuel n ≠ [] := by
  cases fuel with
  | zero => simp [natDecimalBytesAux]
  | succ f =>
    unfold natDecimalBytesAux
    split
    · simp
    · simp

theorem natDecimalBytes_ne_nil (n : Nat) : natDecimalBytes n ≠ [] :=
  natDecimalBytesAux_ne_nil n n

theorem length_filter_mono {α : Type} (p q : α → Bool) :
    ∀ l : List α, (∀ x ∈ l, q x = true → p x = true) →
      (l.filter q).length ≤ (l.filter p).length := by
  intro l
  induction l with
  | nil => intro _; exact Nat.le_refl _
  | cons b t ih =>
    intro himp
    have ht := ih (fun x hx => himp x (List.mem_cons_of_mem b hx))
    by_cases hq : q b = true
    · have hp := himp b (List.mem_cons_self b t) hq
      simp only [List.filter_cons, hq, hp, if_true, List.length_cons]
      omega
    · rw [List.filter_cons_of_neg (by simpa using hq)]
      by_cases hp : p b = true
      · rw [List.filter_cons_of_pos hp]
        simp only [List.length_cons]
        omega
      · rw [List.filter_cons_of_neg (by simpa using hp)]
        exact ht

theorem length_filter_lt {α : Type} (p q : α → Bool) (l : List α)
    (himp : ∀ x ∈ l, q x = true → p x = true) (a : α) (ha : a ∈ l)
    (hpa : p a = true) (hqa : q a = false) :
    (l.filter q).length < (l.filter p).length := by
  induction l with
  | nil => cases ha
  | cons b t ih =>
    have himpt : ∀ x ∈ t, q x = true → p x = true :=
      fun x hx => himp x (List.mem_cons_of_mem b hx)
    rcases List.mem_cons.mp ha with rfl | hat
    · rw [List.filter_cons_of_neg (by simp [hqa]), List.filter_cons_of_pos hpa]
      have := length_filter_mono p q t himpt
      simp only [List.length_cons]
      omega
    · have ht := ih himpt hat
      by_cases hq : q b = true
      · have hp := himp b (List.mem_cons_self b t) hq
        rw [List.filter_cons_of_pos hq, List.filter_cons_of_pos hp]
        simp only [List.length_cons]
        omega
      · rw [List.filter_cons_of_neg (by simpa using hq)]
        by_cases hp : p b = true
        · rw [List.filter_cons_of_pos hp]
          simp only [List.length_cons]
          omega
        · rw [List.filter_cons_of_neg (by simpa using hp)]
          exact ht

theorem uniquifyAux_spec (suf : Name) (hsuf : suf ≠ []) (names : List Name) :
    ∀ fuel name,
      (names.filter (fun s => decide (name.length ≤ s.length))).length < fuel →
      uniquifyAux suf fuel name names ∉ names ∧
      ∃ k, uniquifyAux suf fuel name names = appendCopies name suf k ∧
        ∀ j < k, appendCopies name suf j ∈ names := by
  intro fuel
  induction fuel with
  | zero =>
    intro name hm
    exact absurd hm (Nat.not_lt_zero _)
  | succ f ih =>
    intro name hm
    by_cases hmem : name ∈ names
    · rw [uniquifyAux, if_pos hmem]
      have hsl : 0 < suf.length := List.length_pos.mpr hsuf
      have hstrict :
          ((names.filter (fun s => decide ((name ++ suf).length ≤ s.length))).length)
            < (names.filter (fun s => decide (name.length ≤ s.length))).length := by
        refine length_filter_lt _ _ names ?_ name hmem (by simp) ?_
        · intro x _ hx
          simp only [decide_eq_true_eq, List.length_append] at hx ⊢
          omega
        · simp only [decide_eq_false_iff_not, List.length_append]
          omega
      have ihm := ih (name ++ suf) (by omega)
      refine ⟨ihm.1, ?_⟩
      obtain ⟨k, hk, hall⟩ := ihm.2
      refine ⟨k + 1, hk, ?_⟩
      intro j hj
      cases j with
      | zero => exact hmem
      | succ j2 =>
        show appendCopies (name ++ suf) suf j2 ∈ names
        exact hall j2 (by omega)
    · rw [uniquifyAux, if_neg hmem]
      exact ⟨hmem, 0, rfl, fun j hj => absurd hj (Nat.not_lt_zero _)⟩

theorem uniquify_not_mem (name : Name) (names : List Name) :
    uniquify name names ∉ names := by
  have h := uniquifyAux_spec (natDecimalBytes names.length)
    (natDecimalBytes_ne_nil _) names (names.length + 1) name
    (Nat.lt_succ_of_le (List.length_filter_le _ _))
  exact h.1

theorem uniquify_eq_of_not_mem {name : Name} {names : List Name}
    (h : name ∉ names) : uniquify name names = name := by
  rw [uniquify, uniquifyAux, if_neg h]

theorem uniquify_char (name : Name) (names : List Name) :
    ∃ k, uniquify name names = appendCopies name (natDecimalBytes names.length) k ∧
      ∀ j < k, appendCopies name (natDecimalBytes names.length) j ∈ names := by
  have h := uniquifyAux_spec (natDecimalBytes names.length)
    (natDecimalBytes_ne_nil _) names (names.length + 1) name
    (Nat.lt_succ_of_le (List.length_filter_le _ _))
  exact h.2

/-! Bounds of the index candidate lists. -/

theorem importedGlobalIdxsAux_lt (p : GlobalType → Bool) :
    ∀ (l : List (Name × Name × Import)) (k i : Nat),
      i ∈ importedGlobalIdxsAux p l k →
      i < k + l.countP (fun e => match e.2.2 with | Import.global _ => true | _ => false) := by
  intro l
  induction l with
  | nil =>
    intro k i h
    cases h
  | cons e rest ih =>
    intro k i h
    rw [importedGlobalIdxsAux] at h
    rw [List.countP_cons]
    cases he : e.2.2 with
    | global g =>
      rw [he] at h
      simp only [he]
      rcases List.mem_append.mp h with h1 | h2
      · have : i = k := by
          by_cases hp : p g = true
          · rw [if_pos hp] at h1; simpa using h1
          · rw [if_neg hp] at h1; cases h1
        subst this
        simp [he]
      · have := ih (k + 1) i h2
        simp [he]
        omega
    | func t =>
      rw [he] at h
      have := ih k i h
      simp [he]
      omega
    | table t =>
      rw [he] at h
      have := ih k i h
      simp [he]
      omega
    | memory t =>
      rw [he] at h
      have := ih k i h
      simp [he]
      omega

theorem importedGlobalIdxs_lt {m : Module} {p : GlobalType → Bool} {i : Nat}
    (h : i ∈ importedGlobalIdxs m p) : i < globalImports m := by
  have := importedGlobalIdxsAux_lt p m.imports 0 i h
  simpa [globalImports] using this

theorem startChoicesImports_lt (types : List FuncType) :
    ∀ (l : List (Name × Name × Import)) (k i : Nat),
      i ∈ startChoicesImports types l k →
      i < k + l.countP (fun e => match e.2.2 with | Import.func _ => true | _ => false) := by
  intro l
  induction l with
  | nil =>
    intro k i h
    cases h
  | cons e rest ih =>
    intro k i h
    rw [startChoicesImports] at h
    rw [List.countP_cons]
    cases he : e.2.2 with
    | func t =>
      rw [he] at h
      simp only [he]
      rcases List.mem_append.mp h with h1 | h2
      · have : i = k := by
          split at h1
          · simpa using h1
          · cases h1
        subst this
        simp [he]
      · have := ih (k + 1) i h2
        simp [he]
        omega
    | global g =>
      rw [he] at h
      have := ih k i h
      simp [he]
      omega
    | table t =>
      rw [he] at h
      have := ih k i h
      simp [he]
      omega
    | memory t =>
      rw [he] at h
      have := ih k i h
      simp [he]
      omega

theorem startChoicesFuncs_lt (types : List FuncType) :
    ∀ (l : List Nat) (k i : Nat),
      i ∈ startChoicesFuncs types l k → i < k + l.length := by
  intro l
  induction l with
  | nil =>
    intro k i h
    cases h
  | cons ty rest ih =>
    intro k i h
    rw [startChoicesFuncs] at h
    rcases List.mem_append.mp h with h1 | h2
    · have : i = k := by
        split at h1
        · simpa using h1
        · cases h1
      subst this
      simp only [List.length_cons]
      omega
    · have := ih (k + 1) i h2
      simp only [List.length_cons]
      omega

theorem startChoices_lt {m : Module} {i : Nat} (h : i ∈ startChoices m) :
    i < funcTotal m := by
  rw [startChoices] at h
  rcases List.mem_append.mp h with h1 | h2
  · have := startChoicesImports_lt m.types m.imports 0 i h1
    have h2 : i < funcImports m := by simpa [funcImports] using this
    exact Nat.lt_of_lt_of_le h2 (Nat.le_add_right _ _)
  · have := startChoicesFuncs_lt m.types m.funcs (funcImports m) i h2
    exact this

/-! Per-phase lemmas: each phase only rewrites its own section of the
module, and its appended content satisfies the per-phase bounds. -/

theorem arbitraryTypes_run {cfg : Config} {m m2 : Module} {u v : U}
    (h : arbitraryTypes cfg m u = some (m2, v)) :
    ∃ ts, m2 = { m with types := ts } := by
  unfold arbitraryTypes at h
  refine arbitraryLoop_induct (fun s => ∃ ts, s = { m with types := ts })
    _ ?_ _ _ _ _ ⟨m.types, rfl⟩ h
  intro s u3 r hP hbody
  obtain ⟨ts, rfl⟩ := hP
  simp only [bind_eq_some, pure_run, Option.some.injEq] at hbody
  obtain ⟨ps, u4, hps, rs, u5, hrs, hr⟩ := hbody
  subst hr
  exact ⟨ts ++ [{ params := ps, results := rs }], rfl⟩

theorem arbitraryTypes_total {cfg : Config} {m : Module} (hvt : m.valtypes ≠ [])
    (u : U) : ∃ r, arbitraryTypes cfg m u = some r := by
  unfold arbitraryTypes
  refine arbitraryLoop_total (fun s => s.valtypes ≠ []) _ ?_ ?_ _ m u hvt
  · intro s u3 r hP hbody
    simp only [bind_eq_some, pure_run, Option.some.injEq] at hbody
    obtain ⟨ps, u4, hps, rs, u5, hrs, hr⟩ := hbody
    subst hr
    exact hP
  · intro s u3 hP
    refine bind_total ?_ ?_
    · refine arbitraryLoop_total (fun _ => True) _ (fun _ _ _ _ _ => trivial)
        ?_ 20 [] u3 trivial
      intro l u4 _
      exact bind_total (chooseFrom_total hP u4) (fun vt u5 _ => ⟨_, rfl⟩)
    · intro ps u4 _
      refine bind_total ?_ ?_
      · refine arbitraryLoop_total (fun _ => True) _ (fun _ _ _ _ _ => trivial)
          ?_ 20 [] u4 trivial
        intro l u5 _
        exact bind_total (chooseFrom_total hP u5) (fun vt u6 _ => ⟨_, rfl⟩)
      · intro rs u5 _
        exact ⟨_, rfl⟩

theorem mem_importIterChoices_memory {cfg : Config} {m s : Module}
    (h : ImportChoice.memory ∈ importIterChoices cfg (importStableChoices m) s) :
    memoryImports s < cfg.maxMemories := by
  by_cases hc : memoryImports s < cfg.maxMemories
  · exact hc
  · exfalso
    unfold importIterChoices importStableChoices at h
    rw [if_neg hc] at h
    split_ifs at h <;> simp_all

theorem arbitraryImports_run {cfg : Config} {m m2 : Module} {u v : U}
    (h : arbitraryImports cfg m u = some (m2, v))
    (hmem : memoryImports m ≤ cfg.maxMemories) :
    (∃ imps, m2 = { m with imports := imps }) ∧
      memoryImports m2 ≤ cfg.maxMemories := by
  simp only [arbitraryImports] at h
  refine arbitraryLoop_induct
    (fun s => (∃ imps, s = { m with imports := imps }) ∧
      memoryImports s ≤ cfg.maxMemories)
    _ ?_ _ _ _ _ ⟨⟨m.imports, rfl⟩, hmem⟩ h
  intro s u3 r hP hbody
  obtain ⟨⟨imps, hs⟩, hcnt⟩ := hP
  simp only [bind_eq_some, pure_run, Option.some.injEq] at hbody
  obtain ⟨mn, u4, hmn, fn, u5, hfn, c, u6, hc, imp, u7, himp, hr⟩ := hbody
  subst hr
  constructor
  · subst hs
    exact ⟨imps ++ [(mn, fn, imp)], rfl⟩
  · have hmemcount : ∀ i : Import,
        (match i with | Import.memory _ => true | _ => false) = false →
        memoryImports { s with imports := s.imports ++ [(mn, fn, i)] } =
          memoryImports s := by
      intro i hi
      simp [memoryImports, List.countP_append, List.countP_cons, hi]
    cases c with
    | func =>
      simp only [importChoiceRun, bind_eq_some, pure_run, Option.some.injEq,
        Prod.mk.injEq] at himp
      obtain ⟨i, u8, hi, h1, h2⟩ := himp
      subst h1
      rw [hmemcount _ rfl]
      exact hcnt
    | global =>
      simp only [importChoiceRun, bind_eq_some, pure_run, Option.some.injEq,
        Prod.mk.injEq] at himp
      obtain ⟨g, u8, hg, h1, h2⟩ := himp
      subst h1
      rw [hmemcount _ rfl]
      exact hcnt
    | table =>
      simp only [importChoiceRun, bind_eq_some, pure_run, Option.some.injEq,
        Prod.mk.injEq] at himp
      obtain ⟨t, u8, ht, h1, h2⟩ := himp
      subst h1
      rw [hmemcount _ rfl]
      exact hcnt
    | memory =>
      simp only [importChoiceRun, bind_eq_some, pure_run, Option.some.injEq,
        Prod.mk.injEq] at himp
      obtain ⟨mt, u8, hmt, h1, h2⟩ := himp
      subst h1
      have hlt : memoryImports s < cfg.maxMemories :=
        mem_importIterChoices_memory (chooseFrom_mem hc)
      have hcount : memoryImports
          { s with imports := s.imports ++ [(mn, fn, Import.memory mt)] } =
          memoryImports s + 1 := by
        simp [memoryImports, List.countP_append, List.countP_cons]
      show memoryImports
        { s with imports := s.imports ++ [(mn, fn, Import.memory mt)] } ≤
        cfg.maxMemories
      omega

theorem limits_limited_total (cap : Nat) (u : U) :
    ∃ r, Limits.limited cap u = some r := by
  unfold Limits.limited
  refine bind_total (intInRange_total (Nat.zero_le cap) u) ?_
  intro mn v hmn
  have hb := (intInRange_bounds hmn).2
  refine bind_total (takeBool_run v) ?_
  intro b w _
  cases b with
  | false => exact ⟨_, rfl⟩
  | true =>
    simp only [if_true]
    by_cases hmc : mn = cap
    · rw [if_pos hmc]
      exact ⟨_, rfl⟩
    · rw [if_neg hmc]
      exact bind_total (intInRange_total hb w) (fun mx w2 _ => ⟨_, rfl⟩)

theorem memoryTypeArbitrary_total (u : U) : ∃ r, memoryTypeArbitrary u = some r := by
  unfold memoryTypeArbitrary
  exact bind_total (limits_limited_total 65536 u) (fun l v _ => ⟨_, rfl⟩)

theorem arbitraryTableElemTy_total (cfg : Config) (u : U) :
    ∃ r, arbitraryTableElemTy cfg u = some r := by
  unfold arbitraryTableElemTy
  cases hrt : cfg.referenceTypesEnabled
  · rw [if_neg (by simp [hrt])]
    exact chooseFrom_total (by simp) u
  · rw [if_pos (by simp [hrt])]
    exact ⟨_, rfl⟩

theorem arbitraryTableType_total (cfg : Config) (u : U) :
    ∃ r, arbitraryTableType cfg u = some r := by
  unfold arbitraryTableType
  refine bind_total (arbitraryTableElemTy_total cfg u) ?_
  intro ety v _
  exact bind_total (limits_limited_total 1000000 v) (fun l w _ => ⟨_, rfl⟩)

theorem arbitraryGlobalType_total {m : Module} (hvt : m.valtypes ≠ []) (u : U) :
    ∃ r, arbitraryGlobalType m u = some r := by
  unfold arbitraryGlobalType
  refine bind_total (chooseFrom_total hvt u) ?_
  intro vt v _
  exact bind_total (takeBool_run v) (fun b w _ => ⟨_, rfl⟩)

theorem importChoiceRun_total {cfg : Config} {s : Module} (hvt : s.valtypes ≠ [])
    (c : ImportChoice) (u : U) : ∃ r, importChoiceRun cfg s c u = some r := by
  cases c with
  | func =>
    simp only [importChoiceRun]
    exact bind_total (intInRange_total (Nat.zero_le _) u) (fun i u7 _ => ⟨_, rfl⟩)
  | global =>
    simp only [importChoiceRun]
    exact bind_total (arbitraryGlobalType_total hvt u) (fun g u7 _ => ⟨_, rfl⟩)
  | memory =>
    simp only [importChoiceRun]
    exact bind_total (memoryTypeArbitrary_total u) (fun mt u7 _ => ⟨_, rfl⟩)
  | table =>
    simp only [importChoiceRun]
    exact bind_total (arbitraryTableType_total cfg u) (fun tt u7 _ => ⟨_, rfl⟩)

theorem arbitraryImports_total {cfg : Config} {m : Module} (hvt : m.valtypes ≠ [])
    (u : U) : ∃ r, arbitraryImports cfg m u = some r := by
  simp only [arbitraryImports]
  refine arbitraryLoop_total (fun s => s.valtypes ≠ []) _ ?_ ?_ _ m u hvt
  · intro s u3 r hP hbody
    simp only [bind_eq_some, pure_run, Option.some.injEq] at hbody
    obtain ⟨mn, u4, hmn, fn, u5, hfn, c, u6, hc, imp, u7, himp, hr⟩ := hbody
    subst hr
    exact hP
  · intro s u3 hP
    refine bind_total (limitedString_run 1000 u3) ?_
    intro mn u4 _
    refine bind_total (limitedString_run 1000 u4) ?_
    intro fn u5 _
    have hgl : ImportChoice.global ∈ importIterChoices cfg (importStableChoices m) s := by
      unfold importIterChoices importStableChoices
      simp
    refine bind_total (chooseFrom_total (List.ne_nil_of_mem hgl) u5) ?_
    intro c u6 _
    refine bind_total (importChoiceRun_total hP c u6) ?_
    intro imp u7 _
    exact ⟨_, rfl⟩

theorem arbitraryFuncs_run {cfg : Config} {m m2 : Module} {u v : U}
    (h : arbitraryFuncs cfg m u = some (m2, v))
    (hf : ∀ t ∈ m.funcs, t < m.types.length) :
    (∃ fs, m2 = { m with funcs := fs }) ∧
      ∀ t ∈ m2.funcs, t < m2.types.length := by
  unfold arbitraryFuncs at h
  by_cases hty : m.types = []
  · rw [if_pos hty, pure_run] at h
    cases h
    exact ⟨⟨m.funcs, rfl⟩, hf⟩
  · rw [if_neg hty] at h
    have hlen : 1 ≤ m.types.length := by
      cases hc : m.types
      · exact absurd hc hty
      · simp [hc]
    refine arbitraryLoop_induct
      (fun s => (∃ fs, s = { m with funcs := fs }) ∧
        ∀ t ∈ s.funcs, t < s.types.length)
      _ ?_ _ _ _ _ ⟨⟨m.funcs, rfl⟩, hf⟩ h
    intro s u3 r hP hbody
    obtain ⟨⟨fs, hs⟩, hall⟩ := hP
    simp only [bind_eq_some, pure_run, Option.some.injEq] at hbody
    obtain ⟨ty, u4, hty2, hr⟩ := hbody
    subst hr
    dsimp only
    have hb := (intInRange_bounds hty2).2
    have hslen : s.types.length = m.types.length := by rw [hs]
    constructor
    · subst hs
      exact ⟨fs ++ [ty], rfl⟩
    · intro t ht
      simp only [List.mem_append, List.mem_singleton] at ht
      rcases ht with ht | rfl
      · exact hall t ht
      · omega

theorem arbitraryFuncs_total {cfg : Config} (m : Module) (u : U) :
    ∃ r, arbitraryFuncs cfg m u = some r := by
  unfold arbitraryFuncs
  by_cases hty : m.types = []
  · rw [if_pos hty]
    exact ⟨_, rfl⟩
  · rw [if_neg hty]
    refine arbitraryLoop_total (fun _ => True) _ (fun _ _ _ _ _ => trivial)
      ?_ _ m u trivial
    intro s u3 _
    exact bind_total (intInRange_total (Nat.zero_le _) u3) (fun ty u4 _ => ⟨_, rfl⟩)

theorem arbitraryTables_run {cfg : Config} {m m2 : Module} {u v : U}
    (h : arbitraryTables cfg m u = some (m2, v)) :
    ∃ ts, m2 = { m with tables := ts } := by
  unfold arbitraryTables at h
  refine arbitraryLoop_induct (fun s => ∃ ts, s = { m with tables := ts })
    _ ?_ _ _ _ _ ⟨m.tables, rfl⟩ h
  intro s u3 r hP hbody
  obtain ⟨ts, rfl⟩ := hP
  simp only [bind_eq_some, pure_run, Option.some.injEq] at hbody
  obtain ⟨tt, u4, htt, hr⟩ := hbody
  subst hr
  exact ⟨ts ++ [tt], rfl⟩

theorem arbitraryTables_total {cfg : Config} (m : Module) (u : U) :
    ∃ r, arbitraryTables cfg m u = some r := by
  unfold arbitraryTables
  refine arbitraryLoop_total (fun _ => True) _ (fun _ _ _ _ _ => trivial)
    ?_ _ m u trivial
  intro s u3 _
  exact bind_total (arbitraryTableType_total cfg u3) (fun tt u4 _ => ⟨_, rfl⟩)

theorem arbitraryMemories_run {cfg : Config} {m m2 : Module} {u v : U}
    (h : arbitraryMemories cfg m u = some (m2, v)) :
    (∃ ms, m2 = { m with memories := ms }) ∧
      m2.memories.length ≤ m.memories.length + (cfg.maxMemories - memoryImports m) := by
  unfold arbitraryMemories at h
  constructor
  · refine arbitraryLoop_induct (fun s => ∃ ms, s = { m with memories := ms })
      _ ?_ _ _ _ _ ⟨m.memories, rfl⟩ h
    intro s u3 r hP hbody
    obtain ⟨ms, rfl⟩ := hP
    simp only [bind_eq_some, pure_run, Option.some.injEq] at hbody
    obtain ⟨mt, u4, hmt, hr⟩ := hbody
    subst hr
    exact ⟨ms ++ [mt], rfl⟩
  · refine arbitraryLoop_growth (fun s => s.memories.length) _ ?_ _ _ _ _ h
    intro s u3 r hbody
    simp only [bind_eq_some, pure_run, Option.some.injEq] at hbody
    obtain ⟨mt, u4, hmt, hr⟩ := hbody
    subst hr
    simp

theorem arbitraryMemories_total {cfg : Config} (m : Module) (u : U) :
    ∃ r, arbitraryMemories cfg m u = some r := by
  unfold arbitraryMemories
  refine arbitraryLoop_total (fun _ => True) _ (fun _ _ _ _ _ => trivial)
    ?_ _ m u trivial
  intro s u3 _
  exact bind_total (memoryTypeArbitrary_total u3) (fun mt u4 _ => ⟨_, rfl⟩)

theorem arbitraryConstLiteral_not_globalGet {numFuncs : Nat} {vt : ValType}
    {u : U} {r : Instruction × U}
    (h : arbitraryConstLiteral numFuncs vt u = some r) :
    ∀ i, r.1 ≠ Instruction.globalGet i := by
  intro i
  cases vt
  all_goals simp only [arbitraryConstLiteral] at h
  case i32 | i64 | f32 | f64 =>
    simp only [bind_eq_some, pure_run, Option.some.injEq] at h
    obtain ⟨w, u4, hw, hr⟩ := h
    subst hr
    simp
  case externRef =>
    rw [pure_run] at h
    cases h
    simp
  case funcRef =>
    split at h
    · simp only [bind_eq_some] at h
      obtain ⟨flip, u4, hflip, h⟩ := h
      cases flip with
      | false =>
        simp only [Bool.false_eq_true, if_false, pure_run] at h
        cases h
        simp
      | true =>
        simp only [if_true, bind_eq_some, pure_run, Option.some.injEq] at h
        obtain ⟨f, u5, hf, hr⟩ := h
        subst hr
        simp
    · rw [pure_run] at h
      cases h
      simp

theorem arbitraryConstLiteral_total (numFuncs : Nat) (vt : ValType) (u : U) :
    ∃ r, arbitraryConstLiteral numFuncs vt u = some r := by
  cases vt
  all_goals simp only [arbitraryConstLiteral]
  case i32 | i64 | f32 | f64 =>
    exact bind_total (fillBytesNat_run _ u) (fun w u4 _ => ⟨_, rfl⟩)
  case externRef => exact ⟨_, rfl⟩
  case funcRef =>
    split
    · refine bind_total (takeBool_run u) ?_
      intro flip u4 _
      cases flip with
      | false => exact ⟨_, rfl⟩
      | true =>
        simp only [if_true]
        exact bind_total (intInRange_total (Nat.zero_le _) u4) (fun f u5 _ => ⟨_, rfl⟩)
    · exact ⟨_, rfl⟩

theorem globalInitRun_globalGet {numFuncs : Nat} {vt : ValType}
    {c : GlobalInitChoice} {u : U} {r : Instruction × U} {i : Nat}
    (h : globalInitRun numFuncs vt c u = some r)
    (hi : r.1 = Instruction.globalGet i) :
    c = GlobalInitChoice.importedGlobal i := by
  cases c with
  | literal =>
    simp only [globalInitRun] at h
    exact absurd hi (arbitraryConstLiteral_not_globalGet h i)
  | importedGlobal j =>
    simp only [globalInitRun, pure_run] at h
    cases h
    simp only at hi
    cases hi
    rfl

theorem globalInitRun_total (numFuncs : Nat) (vt : ValType)
    (c : GlobalInitChoice) (u : U) : ∃ r, globalInitRun numFuncs vt c u = some r := by
  cases c with
  | literal =>
    simp only [globalInitRun]
    exact arbitraryConstLiteral_total numFuncs vt u
  | importedGlobal j => exact ⟨_, rfl⟩

theorem arbitraryGlobals_run {cfg : Config} {m m2 : Module} {u v : U}
    (h : arbitraryGlobals cfg m u = some (m2, v))
    (hg : ∀ g ∈ m.globals, ∀ i, g.expr = Instruction.globalGet i → i < globalImports m) :
    (∃ gs, m2 = { m with globals := gs }) ∧
      ∀ g ∈ m2.globals, ∀ i, g.expr = Instruction.globalGet i → i < globalImports m := by
  unfold arbitraryGlobals at h
  refine arbitraryLoop_induct
    (fun s => (∃ gs, s = { m with globals := gs }) ∧
      ∀ g ∈ s.globals, ∀ i, g.expr = Instruction.globalGet i → i < globalImports m)
    _ ?_ _ _ _ _ ⟨⟨m.globals, rfl⟩, hg⟩ h
  intro s u3 r hP hbody
  obtain ⟨⟨gs, hs⟩, hall⟩ := hP
  simp only [bind_eq_some, pure_run, Option.some.injEq] at hbody
  obtain ⟨gt, u4, hgt, c, u5, hc, expr, u6, hexpr, hr⟩ := hbody
  subst hr
  dsimp only
  constructor
  · subst hs
    exact ⟨gs ++ [{ ty := gt, expr := expr }], rfl⟩
  · intro g hgmem i hgi
    rcases List.mem_append.mp hgmem with hold | hnew
    · exact hall g hold i hgi
    · have hgeq : g = { ty := gt, expr := expr } := by simpa using hnew
      subst hgeq
      simp only at hgi
      have hcc : c = GlobalInitChoice.importedGlobal i :=
        globalInitRun_globalGet hexpr hgi
      subst hcc
      have hmem := chooseFrom_mem hc
      simp only [List.mem_cons] at hmem
      rcases hmem with hbad | hmap
      · cases hbad
      · obtain ⟨j, hj, hje⟩ := List.mem_map.mp hmap
        have hji : j = i := by
          injection hje with hji2
        subst hji
        have h1 := importedGlobalIdxs_lt hj
        have h2 : globalImports s = globalImports m := by
          subst hs
          rfl
        omega

theorem arbitraryGlobals_total {cfg : Config} {m : Module} (hvt : m.valtypes ≠ [])
    (u : U) : ∃ r, arbitraryGlobals cfg m u = some r := by
  unfold arbitraryGlobals
  refine arbitraryLoop_total (fun s => s.valtypes ≠ []) _ ?_ ?_ _ m u hvt
  · intro s u3 r hP hbody
    simp only [bind_eq_some, pure_run, Option.some.injEq] at hbody
    obtain ⟨gt, u4, hgt, c, u5, hc, expr, u6, hexpr, hr⟩ := hbody
    subst hr
    exact hP
  · intro s u3 hP
    refine bind_total (arbitraryGlobalType_total hP u3) ?_
    intro gt u4 _
    refine bind_total (chooseFrom_total (by simp) u4) ?_
    intro c u5 _
    refine bind_total (globalInitRun_total _ _ c u5) ?_
    intro expr u6 _
    exact ⟨_, rfl⟩

theorem mem_exportKindChoices_func {s : Module}
    (h : ExportChoice.func ∈ exportKindChoices s) : s.funcs ≠ [] := by
  unfold exportKindChoices at h
  split_ifs at h <;> simp_all

theorem mem_exportKindChoices_table {s : Module}
    (h : ExportChoice.table ∈ exportKindChoices s) :
    0 < tableImports s ∨ s.tables ≠ [] := by
  unfold exportKindChoices at h
  split_ifs at h <;> simp_all

theorem mem_exportKindChoices_memory {s : Module}
    (h : ExportChoice.memory ∈ exportKindChoices s) :
    0 < memoryImports s ∨ s.memories ≠ [] := by
  unfold exportKindChoices at h
  split_ifs at h <;> simp_all

theorem mem_exportKindChoices_global {s : Module}
    (h : ExportChoice.global ∈ exportKindChoices s) : s.globals ≠ [] := by
  unfold exportKindChoices at h
  split_ifs at h <;> simp_all

theorem exportChoiceRun_bound {s : Module} {c : ExportChoice} {u : U}
    {r : Export × U} (h : exportChoiceRun s c u = some r)
    (hc : c ∈ exportKindChoices s) : exportBound s r.1 := by
  cases c with
  | func =>
    simp only [exportChoiceRun, bind_eq_some, pure_run, Option.some.injEq] at h
    obtain ⟨i, u4, hi, hr⟩ := h
    subst hr
    have hb := (intInRange_bounds hi).2
    have hne := mem_exportKindChoices_func hc
    have hpos : 0 < s.funcs.length := List.length_pos.mpr hne
    simp only [exportBound, funcTotal]
    omega
  | table =>
    simp only [exportChoiceRun, bind_eq_some, pure_run, Option.some.injEq] at h
    obtain ⟨i, u4, hi, hr⟩ := h
    subst hr
    have hb := (intInRange_bounds hi).2
    have hne := mem_exportKindChoices_table hc
    have hpos : 0 < tableImports s + s.tables.length := by
      rcases hne with hp | hp
      · omega
      · have := List.length_pos.mpr hp
        omega
    simp only [exportBound, tableTotal]
    omega
  | memory =>
    simp only [exportChoiceRun, bind_eq_some, pure_run, Option.some.injEq] at h
    obtain ⟨i, u4, hi, hr⟩ := h
    subst hr
    have hb := (intInRange_bounds hi).2
    have hne := mem_exportKindChoices_memory hc
    have hpos : 0 < memoryImports s + s.memories.length := by
      rcases hne with hp | hp
      · omega
      · have := List.length_pos.mpr hp
        omega
    simp only [exportBound, memTotal]
    omega
  | global =>
    simp only [exportChoiceRun, bind_eq_some, pure_run, Option.some.injEq] at h
    obtain ⟨i, u4, hi, hr⟩ := h
    subst hr
    have hb := (intInRange_bounds hi).2
    have hne := mem_exportKindChoices_global hc
    have hpos : 0 < s.globals.length := List.length_pos.mpr hne
    simp only [exportBound, globalTotal]
    omega

theorem exportChoiceRun_total (s : Module) (c : ExportChoice) (u : U) :
    ∃ r, exportChoiceRun s c u = some r := by
  cases c with
  | func =>
    simp only [exportChoiceRun]
    exact bind_total (intInRange_total (Nat.zero_le _) u) (fun i u4 _ => ⟨_, rfl⟩)
  | table =>
    simp only [exportChoiceRun]
    exact bind_total (intInRange_total (Nat.zero_le _) u) (fun i u4 _ => ⟨_, rfl⟩)
  | memory =>
    simp only [exportChoiceRun]
    exact bind_total (intInRange_total (Nat.zero_le _) u) (fun i u4 _ => ⟨_, rfl⟩)
  | global =>
    simp only [exportChoiceRun]
    exact bind_total (intInRange_total (Nat.zero_le _) u) (fun i u4 _ => ⟨_, rfl⟩)

theorem exportBound_stable {m : Module} {exs : List (Name × Export)} {e : Export} :
    exportBound { m with exports := exs } e ↔ exportBound m e := by
  cases e <;>
    simp [exportBound, funcTotal, tableTotal, memTotal, globalTotal,
      funcImports, tableImports, memoryImports, globalImports]

theorem arbitraryExports_run {cfg : Config} {m m2 : Module} {u v : U}
    (h : arbitraryExports cfg m u = some (m2, v))
    (hex : m.exports = []) :
    (∃ exs, m2 = { m with exports := exs }) ∧
      (m2.exports.map Prod.fst).Nodup ∧
      ∀ e ∈ m2.exports, exportBound m e.2 := by
  simp only [arbitraryExports] at h
  split at h
  · rw [pure_run] at h
    cases h
    refine ⟨⟨m.exports, rfl⟩, ?_, ?_⟩
    · rw [hex]
      exact List.nodup_nil
    · rw [hex]
      intro e he
      cases he
  · rw [bind_eq_some] at h
    obtain ⟨rst, u9, hloop, hpure⟩ := h
    rw [pure_run] at hpure
    cases hpure
    have hnd0 : (m.exports.map Prod.fst).Nodup := by simp [hex]
    have hsub0 : ∀ nm ∈ m.exports.map Prod.fst, nm ∈ ([] : List Name) := by
      simp [hex]
    have hbd0 : ∀ e ∈ m.exports, exportBound m e.2 := by simp [hex]
    have hinv := arbitraryLoop_induct
      (fun st : List Name × Module =>
        (∃ exs, st.2 = { m with exports := exs }) ∧
        (st.2.exports.map Prod.fst).Nodup ∧
        (∀ nm ∈ st.2.exports.map Prod.fst, nm ∈ st.1) ∧
        (∀ e ∈ st.2.exports, exportBound m e.2))
      _ ?_ _ _ _ _ ⟨⟨m.exports, rfl⟩, hnd0, hsub0, hbd0⟩ hloop
    · exact ⟨hinv.1, hinv.2.1, hinv.2.2.2⟩
    · intro st u3 r hP hbody
      obtain ⟨⟨exs, hs⟩, hnd, hsub, hbd⟩ := hP
      simp only [bind_eq_some, pure_run, Option.some.injEq] at hbody
      obtain ⟨nm0, u4, hnm0, c, u5, hc, ex, u6, hex2, hr⟩ := hbody
      subst hr
      dsimp only
      have hnotin : uniquify nm0 st.1 ∉ st.2.exports.map Prod.fst := by
        intro hbad
        exact uniquify_not_mem nm0 st.1 (hsub _ hbad)
      refine ⟨⟨exs ++ [(uniquify nm0 st.1, ex)], by rw [hs]⟩, ?_, ?_, ?_⟩
      · rw [List.map_append]
        simp only [List.map_cons, List.map_nil]
        rw [List.nodup_append]
        refine ⟨hnd, List.nodup_singleton _, ?_⟩
        intro a ha hb
        simp only [List.mem_singleton] at hb
        subst hb
        exact hnotin ha
      · rw [List.map_append]
        intro nm hnm
        rcases List.mem_append.mp hnm with h1 | h2
        · exact List.mem_cons_of_mem _ (hsub nm h1)
        · simp only [List.map_cons, List.map_nil, List.mem_singleton] at h2
          subst h2
          exact List.mem_cons_self _ _
      · intro e he
        rcases List.mem_append.mp he with h1 | h2
        · exact hbd e h1
        · simp only [List.mem_singleton] at h2
          subst h2
          have hc0 : c ∈ exportKindChoices m := chooseFrom_mem hc
          have hcs : c ∈ exportKindChoices st.2 := by
            rw [hs]
            exact hc0
          have hbnd := exportChoiceRun_bound hex2 hcs
          rw [hs] at hbnd
          exact exportBound_stable.mp hbnd

theorem arbitraryExports_total {cfg : Config} (m : Module) (u : U) :
    ∃ r, arbitraryExports cfg m u = some r := by
  simp only [arbitraryExports]
  split
  · exact ⟨_, rfl⟩
  · rename_i hcs
    refine bind_total ?_ ?_
    · refine arbitraryLoop_total (fun _ => True) _ (fun _ _ _ _ _ => trivial)
        ?_ _ ([], m) u trivial
      intro st u3 _
      refine bind_total (limitedString_run 1000 u3) ?_
      intro nm0 u4 _
      refine bind_total (chooseFrom_total hcs u4) ?_
      intro c u5 _
      refine bind_total (exportChoiceRun_total st.2 c u5) ?_
      intro ex u6 _
      exact ⟨_, rfl⟩
    · intro rst u9 _
      exact ⟨_, rfl⟩

theorem arbitraryStart_run {m m2 : Module} {u v : U}
    (h : arbitraryStart m u = some (m2, v)) (hst : m.start = none) :
    (∃ st, m2 = { m with start := st }) ∧
      ∀ f, m2.start = some f → f < funcTotal m := by
  unfold arbitraryStart at h
  by_cases hcs : startChoices m ≠ []
  · rw [if_pos hcs] at h
    rw [bind_eq_some] at h
    obtain ⟨flip, u3, hflip, h⟩ := h
    cases flip with
    | false =>
      simp only [Bool.false_eq_true, if_false, pure_run] at h
      cases h
      refine ⟨⟨m.start, rfl⟩, ?_⟩
      rw [hst]
      intro f hf
      cases hf
    | true =>
      simp only [if_true, bind_eq_some, pure_run, Option.some.injEq,
        Prod.mk.injEq] at h
      obtain ⟨f, u4, hf, h1, h2⟩ := h
      subst h1
      refine ⟨⟨some f, rfl⟩, ?_⟩
      intro f2 hf2
      have hse : some f = some f2 := hf2
      cases hse
      exact startChoices_lt (chooseFrom_mem hf)
  · rw [if_neg hcs, pure_run] at h
    cases h
    refine ⟨⟨m.start, rfl⟩, ?_⟩
    rw [hst]
    intro f hf
    cases hf

theorem arbitraryStart_total (m : Module) (u : U) :
    ∃ r, arbitraryStart m u = some r := by
  unfold arbitraryStart
  by_cases hcs : startChoices m ≠ []
  · rw [if_pos hcs]
    refine bind_total (takeBool_run u) ?_
    intro flip u3 _
    cases flip with
    | false => exact ⟨_, rfl⟩
    | true =>
      simp only [if_true]
      exact bind_total (chooseFrom_total hcs u3) (fun f u4 _ => ⟨_, rfl⟩)
  · rw [if_neg hcs]
    exact ⟨_, rfl⟩

theorem arbitraryOffset_run {ogc : List Nat} {u : U} {r : Instruction × U}
    (h : arbitraryOffset ogc u = some r) :
    ∀ g, r.1 = Instruction.globalGet g → g ∈ ogc := by
  unfold arbitraryOffset at h
  by_cases hne : ogc ≠ []
  · rw [if_pos hne] at h
    rw [bind_eq_some] at h
    obtain ⟨flip, u3, hflip, h⟩ := h
    cases flip with
    | false =>
      simp only [Bool.false_eq_true, if_false, bind_eq_some, pure_run,
        Option.some.injEq] at h
      obtain ⟨w, u4, hw, hr⟩ := h
      subst hr
      intro g hg
      cases hg
    | true =>
      simp only [if_true, bind_eq_some, pure_run, Option.some.injEq] at h
      obtain ⟨g2, u4, hg2, hr⟩ := h
      subst hr
      intro g hg
      have : g2 = g := by injection hg with h2
      subst this
      exact chooseFrom_mem hg2
  · rw [if_neg hne] at h
    simp only [bind_eq_some, pure_run, Option.some.injEq] at h
    obtain ⟨w, u4, hw, hr⟩ := h
    subst hr
    intro g hg
    cases hg

theorem arbitraryOffset_total (ogc : List Nat) (u : U) :
    ∃ r, arbitraryOffset ogc u = some r := by
  unfold arbitraryOffset
  by_cases hne : ogc ≠ []
  · rw [if_pos hne]
    refine bind_total (takeBool_run u) ?_
    intro flip u3 _
    cases flip with
    | false =>
      simp only [Bool.false_eq_true, if_false]
      exact bind_total (fillBytesNat_run 4 u3) (fun w u4 _ => ⟨_, rfl⟩)
    | true =>
      simp only [if_true]
      exact bind_total (chooseFrom_total hne u3) (fun g u4 _ => ⟨_, rfl⟩)
  · rw [if_neg hne]
    exact bind_total (fillBytesNat_run 4 u) (fun w u4 _ => ⟨_, rfl⟩)

theorem elemChoiceRun_run {ogc : List Nat} {tys : List ValType}
    {c : ElemChoice} {u : U} {r : (ElementKind × ValType) × U}
    (h : elemChoiceRun ogc tys c u = some r) :
    ∀ t off, r.1.1 = ElementKind.active t off →
      ∀ g, off = Instruction.globalGet g → g ∈ ogc := by
  cases c with
  | mvpActive =>
    simp only [elemChoiceRun, bind_eq_some, pure_run, Option.some.injEq] at h
    obtain ⟨off, u3, hoff, hr⟩ := h
    subst hr
    intro t off2 hk g hg
    have hoe : off = off2 := by injection hk with h1 h2
    subst hoe
    subst hg
    exact arbitraryOffset_run hoff g rfl
  | anyTableActive =>
    simp only [elemChoiceRun, bind_eq_some, pure_run, Option.some.injEq] at h
    obtain ⟨i, u3, hi, off, u4, hoff, hr⟩ := h
    subst hr
    intro t off2 hk g hg
    have hoe : off = off2 := by injection hk with h1 h2
    subst hoe
    subst hg
    exact arbitraryOffset_run hoff g rfl
  | passiveFunc =>
    simp only [elemChoiceRun, pure_run] at h
    cases h
    intro t off hk
    cases hk
  | passiveExternRef =>
    simp only [elemChoiceRun, pure_run] at h
    cases h
    intro t off hk
    cases hk
  | declaredFunc =>
    simp only [elemChoiceRun, pure_run] at h
    cases h
    intro t off hk
    cases hk
  | declaredExternRef =>
    simp only [elemChoiceRun, pure_run] at h
    cases h
    intro t off hk
    cases hk

theorem elemChoiceRun_total (ogc : List Nat) (tys : List ValType)
    (c : ElemChoice) (u : U) : ∃ r, elemChoiceRun ogc tys c u = some r := by
  cases c with
  | mvpActive =>
    simp only [elemChoiceRun]
    exact bind_total (arbitraryOffset_total ogc u) (fun off u3 _ => ⟨_, rfl⟩)
  | anyTableActive =>
    simp only [elemChoiceRun]
    refine bind_total (intInRange_total (Nat.zero_le _) u) ?_
    intro i u3 _
    exact bind_total (arbitraryOffset_total ogc u3) (fun off u4 _ => ⟨_, rfl⟩)
  | passiveFunc => exact ⟨_, rfl⟩
  | passiveExternRef => exact ⟨_, rfl⟩
  | declaredFunc => exact ⟨_, rfl⟩
  | declaredExternRef => exact ⟨_, rfl⟩

theorem elemExprFormDraw_total (cfg : Config) (ty : ValType) (u : U) :
    ∃ r, elemExprFormDraw cfg ty u = some r := by
  unfold elemExprFormDraw
  split
  · exact ⟨_, rfl⟩
  · split
    · exact takeBool_run u
    · exact ⟨_, rfl⟩

theorem elemItemDraw_run {ty : ValType} {funcMax : Nat} {u : U}
    {r : Option Nat × U} (h : elemItemDraw ty funcMax u = some r) :
    ∀ f, r.1 = some f → f < funcMax := by
  unfold elemItemDraw at h
  split at h
  · rw [pure_run] at h
    cases h
    intro f hf
    cases hf
  · rename_i hcond
    rw [bind_eq_some] at h
    obtain ⟨flip, u3, hflip, h⟩ := h
    cases flip with
    | false =>
      simp only [Bool.false_eq_true, if_false, bind_eq_some, pure_run,
        Option.some.injEq] at h
      obtain ⟨f2, u4, hf2, hr⟩ := h
      subst hr
      intro f hf
      have : f2 = f := by injection hf with h2
      subst this
      have hb := (intInRange_bounds hf2).2
      have hfm : funcMax ≠ 0 := by
        intro hz
        exact hcond (Or.inr hz)
      omega
    | true =>
      simp only [if_true, pure_run] at h
      cases h
      intro f hf
      cases hf

theorem elemItemDraw_total (ty : ValType) (funcMax : Nat) (u : U) :
    ∃ r, elemItemDraw ty funcMax u = some r := by
  unfold elemItemDraw
  split
  · exact ⟨_, rfl⟩
  · refine bind_total (takeBool_run u) ?_
    intro flip u3 _
    cases flip with
    | false =>
      simp only [Bool.false_eq_true, if_false]
      exact bind_total (intInRange_total (Nat.zero_le _) u3) (fun f u4 _ => ⟨_, rfl⟩)
    | true => exact ⟨_, rfl⟩

theorem elemItemsRun_run {cfg : Config} {funcMax : Nat} {ty : ValType}
    {form : Bool} {u : U} {r : Elements × U}
    (h : elemItemsRun cfg funcMax ty form u = some r) :
    (∀ fs, r.1 = Elements.functions fs → ∀ i ∈ fs, i < funcMax) ∧
    (∀ es, r.1 = Elements.expressions es → ∀ o ∈ es, ∀ i, o = some i → i < funcMax) := by
  unfold elemItemsRun at h
  cases form with
  | true =>
    simp only [if_true, bind_eq_some, pure_run, Option.some.injEq] at h
    obtain ⟨init, u3, hinit, hr⟩ := h
    subst hr
    have hall : ∀ o ∈ init, ∀ i, o = some i → i < funcMax := by
      have := arbitraryLoop_induct
        (fun l : List (Option Nat) => ∀ o ∈ l, ∀ i, o = some i → i < funcMax)
        _ ?_ _ _ _ _ (by intro o ho; cases ho) hinit
      · exact this
      · intro l u4 r2 hP hbody
        simp only [bind_eq_some, pure_run, Option.some.injEq] at hbody
        obtain ⟨e, u5, he, hr2⟩ := hbody
        subst hr2
        intro o ho i hoi
        rcases List.mem_append.mp ho with h1 | h2
        · exact hP o h1 i hoi
        · simp only [List.mem_singleton] at h2
          subst h2
          exact elemItemDraw_run he i hoi
    constructor
    · intro fs hfs
      cases hfs
    · intro es hes
      have : init = es := by injection hes with h2
      subst this
      exact hall
  | false =>
    simp only [Bool.false_eq_true, if_false] at h
    split at h
    · simp only [bind_eq_some, pure_run, Option.some.injEq] at h
      obtain ⟨init, u3, hinit, hr⟩ := h
      subst hr
      have hall : ∀ i ∈ init, i < funcMax := by
        have := arbitraryLoop_induct
          (fun l : List Nat => ∀ i ∈ l, i < funcMax)
          _ ?_ _ _ _ _ (by intro i hi; cases hi) hinit
        · exact this
        · intro l u4 r2 hP hbody
          simp only [bind_eq_some, pure_run, Option.some.injEq] at hbody
          obtain ⟨f, u5, hf, hr2⟩ := hbody
          subst hr2
          intro i hi
          rcases List.mem_append.mp hi with h1 | h2
          · exact hP i h1
          · simp only [List.mem_singleton] at h2
            subst h2
            have hb := (intInRange_bounds hf).2
            rename_i hpos
            omega
      constructor
      · intro fs hfs
        have : init = fs := by injection hfs with h2
        subst this
        exact hall
      · intro es hes
        cases hes
    · rw [pure_run] at h
      cases h
      constructor
      · intro fs hfs
        have : ([] : List Nat) = fs := by injection hfs with h2
        subst this
        intro i hi
        cases hi
      · intro es hes
        cases hes

theorem elemItemsRun_total (cfg : Config) (funcMax : Nat) (ty : ValType)
    (form : Bool) (u : U) : ∃ r, elemItemsRun cfg funcMax ty form u = some r := by
  unfold elemItemsRun
  cases form with
  | true =>
    simp only [if_true]
    refine bind_total ?_ ?_
    · refine arbitraryLoop_total (fun _ => True) _ (fun _ _ _ _ _ => trivial)
        ?_ _ [] u trivial
      intro l u3 _
      exact bind_total (elemItemDraw_total ty funcMax u3) (fun e u4 _ => ⟨_, rfl⟩)
    · intro init u3 _
      exact ⟨_, rfl⟩
  | false =>
    simp only [Bool.false_eq_true, if_false]
    split
    · refine bind_total ?_ ?_
      · refine arbitraryLoop_total (fun _ => True) _ (fun _ _ _ _ _ => trivial)
          ?_ _ [] u trivial
        intro l u3 _
        exact bind_total (intInRange_total (Nat.zero_le _) u3) (fun f u4 _ => ⟨_, rfl⟩)
      · intro init u3 _
        exact ⟨_, rfl⟩
    · exact ⟨_, rfl⟩

theorem offsetGlobalChoices_lt {m : Module} {g : Nat}
    (h : g ∈ offsetGlobalChoices m) : g < globalImports m :=
  importedGlobalIdxs_lt h

theorem arbitraryElems_run {cfg : Config} {m m2 : Module} {u v : U}
    (h : arbitraryElems cfg m u = some (m2, v)) (hel : m.elems = []) :
    (∃ els, m2 = { m with elems := els }) ∧
      ∀ seg ∈ m2.elems,
        (∀ fs, seg.items = Elements.functions fs →
          ∀ i ∈ fs, i < funcImports m + m.funcs.length) ∧
        (∀ es, seg.items = Elements.expressions es →
          ∀ o ∈ es, ∀ i, o = some i → i < funcImports m + m.funcs.length) ∧
        (∀ t off, seg.kind = ElementKind.active t off →
          ∀ g, off = Instruction.globalGet g → g < globalImports m) := by
  simp only [arbitraryElems] at h
  split at h
  · rw [pure_run] at h
    cases h
    refine ⟨⟨m.elems, rfl⟩, ?_⟩
    rw [hel]
    intro seg hseg
    cases hseg
  · refine arbitraryLoop_induct
      (fun s => (∃ els, s = { m with elems := els }) ∧
        ∀ seg ∈ s.elems,
          (∀ fs, seg.items = Elements.functions fs →
            ∀ i ∈ fs, i < funcImports m + m.funcs.length) ∧
          (∀ es, seg.items = Elements.expressions es →
            ∀ o ∈ es, ∀ i, o = some i → i < funcImports m + m.funcs.length) ∧
          (∀ t off, seg.kind = ElementKind.active t off →
            ∀ g, off = Instruction.globalGet g → g < globalImports m))
      _ ?_ _ _ _ _ ⟨⟨m.elems, rfl⟩, by rw [hel]; intro seg hseg; cases hseg⟩ h
    intro s u3 r hP hbody
    obtain ⟨⟨els, hs⟩, hall⟩ := hP
    simp only [bind_eq_some, pure_run, Option.some.injEq] at hbody
    obtain ⟨c, u4, hc, kt, u5, hkt, form, u6, hform, items, u7, hitems, hr⟩ := hbody
    subst hr
    dsimp only
    constructor
    · subst hs
      exact ⟨els ++ [{ kind := kt.1, ty := kt.2, items := items }], rfl⟩
    · intro seg hseg
      rcases List.mem_append.mp hseg with h1 | h2
      · exact hall seg h1
      · simp only [List.mem_singleton] at h2
        subst h2
        have hitem := elemItemsRun_run hitems
        refine ⟨?_, ?_, ?_⟩
        · intro fs hfs
          exact hitem.1 fs hfs
        · intro es hes
          exact hitem.2 es hes
        · intro t off hk g hg
          have := elemChoiceRun_run hkt t off hk g hg
          exact offsetGlobalChoices_lt this

theorem arbitraryElems_total (cfg : Config) (m : Module) (u : U) :
    ∃ r, arbitraryElems cfg m u = some r := by
  simp only [arbitraryElems]
  split
  · exact ⟨_, rfl⟩
  · rename_i hcs
    refine arbitraryLoop_total (fun _ => True) _ (fun _ _ _ _ _ => trivial)
      ?_ _ m u trivial
    intro s u3 _
    refine bind_total (chooseFrom_total hcs u3) ?_
    intro c u4 _
    refine bind_total (elemChoiceRun_total _ _ c u4) ?_
    intro kt u5 _
    refine bind_total (elemExprFormDraw_total cfg kt.2 u5) ?_
    intro form u6 _
    refine bind_total (elemItemsRun_total cfg _ kt.2 form u6) ?_
    intro items u7 _
    exact ⟨_, rfl⟩

theorem dataPassiveDraw_run {cfg : Config} {memories : Nat} {u : U}
    {r : Bool × U} (h : dataPassiveDraw cfg memories u = some r) :
    (r.1 = true → cfg.bulkMemoryEnabled = true) ∧
    (cfg.bulkMemoryEnabled = true → memories = 0 → r.1 = true) := by
  unfold dataPassiveDraw at h
  cases hb : cfg.bulkMemoryEnabled
  · rw [if_neg (by simp [hb]), pure_run] at h
    cases h
    constructor
    · intro hx
      simp at hx
    · intro hx
      simp at hx
  · rw [if_pos hb] at h
    by_cases hm : memories = 0
    · rw [if_pos hm, pure_run] at h
      cases h
      exact ⟨fun _ => rfl, fun _ _ => rfl⟩
    · rw [if_neg hm] at h
      exact ⟨fun _ => rfl, fun _ hz => absurd hz hm⟩

theorem dataPassiveDraw_total (cfg : Config) (memories : Nat) (u : U) :
    ∃ r, dataPassiveDraw cfg memories u = some r := by
  unfold dataPassiveDraw
  split
  · split
    · exact ⟨_, rfl⟩
    · exact takeBool_run u
  · exact ⟨_, rfl⟩

theorem dataOffsetRun_run {c : Option Nat} {u : U} {r : Instruction × U}
    (h : dataOffsetRun c u = some r) :
    ∀ g, r.1 = Instruction.globalGet g → c = some g := by
  cases c with
  | none =>
    simp only [dataOffsetRun, bind_eq_some, pure_run, Option.some.injEq] at h
    obtain ⟨w, u3, hw, hr⟩ := h
    subst hr
    intro g hg
    cases hg
  | some g2 =>
    simp only [dataOffsetRun, pure_run] at h
    cases h
    intro g hg
    have : g2 = g := by injection hg with h2
    subst this
    rfl

theorem dataOffsetRun_total (c : Option Nat) (u : U) :
    ∃ r, dataOffsetRun c u = some r := by
  cases c with
  | none =>
    simp only [dataOffsetRun]
    exact bind_total (fillBytesNat_run 4 u) (fun w u3 _ => ⟨_, rfl⟩)
  | some g => exact ⟨_, rfl⟩

theorem dataKindRun_run {cs : List (Option Nat)} {memories : Nat} {pc : Bool}
    {u : U} {r : DataSegmentKind × U} (h : dataKindRun cs memories pc u = some r) :
    (r.1 = DataSegmentKind.passive → pc = true) ∧
    (∀ mi off, r.1 = DataSegmentKind.active mi off →
      pc = false ∧ mi ≤ memories - 1 ∧
      ∀ g, off = Instruction.globalGet g → some g ∈ cs) := by
  unfold dataKindRun at h
  cases pc with
  | true =>
    rw [if_pos rfl, pure_run] at h
    cases h
    constructor
    · intro _
      rfl
    · intro mi off hk
      cases hk
  | false =>
    rw [if_neg (by simp)] at h
    simp only [bind_eq_some, pure_run, Option.some.injEq] at h
    obtain ⟨c, u3, hc, off, u4, hoff, mi, u5, hmi, hr⟩ := h
    subst hr
    constructor
    · intro hk
      cases hk
    · intro mi2 off2 hk
      have h1 : mi = mi2 ∧ off = off2 := by
        constructor
        · injection hk with ha hb
        · injection hk with ha hb
      obtain ⟨rfl, rfl⟩ := h1
      refine ⟨rfl, (intInRange_bounds hmi).2, ?_⟩
      intro g hg
      have hcg := dataOffsetRun_run hoff g hg
      subst hcg
      exact chooseFrom_mem hc

theorem dataKindRun_total (cs : List (Option Nat)) (memories : Nat) (pc : Bool)
    (u : U) (hcs : cs ≠ []) : ∃ r, dataKindRun cs memories pc u = some r := by
  unfold dataKindRun
  split
  · exact ⟨_, rfl⟩
  · refine bind_total (chooseFrom_total hcs u) ?_
    intro c u3 _
    refine bind_total (dataOffsetRun_total c u3) ?_
    intro off u4 _
    exact bind_total (intInRange_total (Nat.zero_le _) u4) (fun mi u5 _ => ⟨_, rfl⟩)

theorem mem_dataOffsetChoices {m : Module} {g : Nat}
    (h : some g ∈ dataOffsetChoices m) : g < globalImports m := by
  unfold dataOffsetChoices at h
  rcases List.mem_cons.mp h with h1 | h2
  · cases h1
  · obtain ⟨j, hj, hje⟩ := List.mem_map.mp h2
    have : j = g := by injection hje with h2
    subst this
    exact importedGlobalIdxs_lt hj

theorem arbitraryData_run {cfg : Config} {m m2 : Module} {u v : U}
    (h : arbitraryData cfg m u = some (m2, v)) (hd : m.data = []) :
    (∃ ds, m2 = { m with data := ds }) ∧
      (∀ d ∈ m2.data,
        (d.kind = DataSegmentKind.passive → cfg.bulkMemoryEnabled = true) ∧
        (cfg.bulkMemoryEnabled = true →
          m.memories.length + memoryImports m = 0 →
          d.kind = DataSegmentKind.passive) ∧
        (∀ mi off, d.kind = DataSegmentKind.active mi off →
          mi < m.memories.length + memoryImports m ∧
          ∀ g, off = Instruction.globalGet g → g < globalImports m)) ∧
      (cfg.bulkMemoryEnabled = false →
        m.memories.length + memoryImports m = 0 → m2.data = []) := by
  simp only [arbitraryData] at h
  split at h
  · rename_i hguard
    rw [pure_run] at h
    cases h
    refine ⟨⟨m.data, rfl⟩, ?_, ?_⟩
    · rw [hd]
      intro d hdm
      cases hdm
    · intro _ _
      exact hd
  · rename_i hguard
    have hinv := arbitraryLoop_induct
      (fun s => (∃ ds, s = { m with data := ds }) ∧
        ∀ d ∈ s.data,
          (d.kind = DataSegmentKind.passive → cfg.bulkMemoryEnabled = true) ∧
          (cfg.bulkMemoryEnabled = true →
            m.memories.length + memoryImports m = 0 →
            d.kind = DataSegmentKind.passive) ∧
          (∀ mi off, d.kind = DataSegmentKind.active mi off →
            mi < m.memories.length + memoryImports m ∧
            ∀ g, off = Instruction.globalGet g → g < globalImports m))
      _ ?_ _ _ _ _ ⟨⟨m.data, rfl⟩, by rw [hd]; intro d hdm; cases hdm⟩ h
    · refine ⟨hinv.1, hinv.2, ?_⟩
      intro hb hm
      exact absurd ⟨hm, hb⟩ hguard
    · intro s u3 r hP hbody
      obtain ⟨⟨ds, hs⟩, hall⟩ := hP
      simp only [bind_eq_some, pure_run, Option.some.injEq] at hbody
      obtain ⟨pc, u4, hpc, kind, u5, hkind, init, u6, hinit, hr⟩ := hbody
      subst hr
      dsimp only
      constructor
      · subst hs
        exact ⟨ds ++ [{ kind := kind, init := init }], rfl⟩
      · intro d hdm
        rcases List.mem_append.mp hdm with h1 | h2
        · exact hall d h1
        · simp only [List.mem_singleton] at h2
          subst h2
          have hpcr := dataPassiveDraw_run hpc
          have hkr := dataKindRun_run hkind
          refine ⟨?_, ?_, ?_⟩
          · intro hk
            exact hpcr.1 (hkr.1 hk)
          · intro hb hm
            cases hkc : kind with
            | passive => rfl
            | active mi off =>
              exfalso
              have := (hkr.2 mi off (by rw [hkc])).1
              have hpt := hpcr.2 hb hm
              rw [this] at hpt
              cases hpt
          · intro mi off hk
            have hk2 := hkr.2 mi off hk
            have hmem0 : m.memories.length + memoryImports m ≠ 0 := by
              intro hz
              cases hbk : cfg.bulkMemoryEnabled
              · exact hguard ⟨hz, hbk⟩
              · have hpt := hpcr.2 hbk hz
                rw [hk2.1] at hpt
                cases hpt
            refine ⟨by omega, ?_⟩
            intro g hg
            exact mem_dataOffsetChoices (hk2.2.2 g hg)

theorem arbitraryData_total (cfg : Config) (m : Module) (u : U) :
    ∃ r, arbitraryData cfg m u = some r := by
  simp only [arbitraryData]
  split
  · exact ⟨_, rfl⟩
  · refine arbitraryLoop_total (fun _ => True) _ (fun _ _ _ _ _ => trivial)
      ?_ _ m u trivial
    intro s u3 _
    refine bind_total (dataPassiveDraw_total cfg _ u3) ?_
    intro pc u4 _
    refine bind_total (dataKindRun_total _ _ pc u4 (by simp [dataOffsetChoices])) ?_
    intro kind u5 _
    exact bind_total (vecU8Arbitrary_run u5) (fun init u6 _ => ⟨_, rfl⟩)

theorem arbitraryCode_run {allowInvalid : Bool} {m m2 : Module} {u v : U}
    (h : arbitraryCode allowInvalid m u = some (m2, v)) :
    ∃ cd, m2 = { m with code := cd } := by
  unfold arbitraryCode at h
  simp only [bind_eq_some, pure_run, Option.some.injEq, Prod.mk.injEq] at h
  obtain ⟨cd, u3, hcd, h1, h2⟩ := h
  subst h1
  exact ⟨cd, rfl⟩

theorem arbitraryFuncBody_total {m : Module} (hvt : m.valtypes ≠ [])
    (allowInvalid : Bool) (ty : FuncType) (u : U) :
    ∃ r, arbitraryFuncBody allowInvalid m ty u = some r := by
  unfold arbitraryFuncBody
  refine bind_total ?_ ?_
  · refine arbitraryLoop_total (fun _ => True) _ (fun _ _ _ _ _ => trivial)
      ?_ 100 [] u trivial
    intro l u3 _
    exact bind_total (chooseFrom_total hvt u3) (fun vt u4 _ => ⟨_, rfl⟩)
  · intro locals u3 _
    cases allowInvalid with
    | false =>
      simp only [Bool.false_eq_true, if_false]
      exact bind_total ⟨_, rfl⟩ (fun ins u4 _ => ⟨_, rfl⟩)
    | true =>
      simp only [if_true]
      refine bind_total (takeBool_run u3) ?_
      intro flip u4 _
      cases flip with
      | false =>
        simp only [Bool.false_eq_true, if_false]
        exact bind_total ⟨_, rfl⟩ (fun ins u5 _ => ⟨_, rfl⟩)
      | true =>
        simp only [if_true]
        exact bind_total (arbitraryVecU8_run u4) (fun bytes u5 _ => ⟨_, rfl⟩)

theorem codeForFuncs_total {allowInvalid : Bool} {m : Module}
    (hvt : m.valtypes ≠ []) :
    ∀ (fs : List Nat) (u : U), ∃ r, codeForFuncs allowInvalid m fs u = some r := by
  intro fs
  induction fs with
  | nil =>
    intro u
    exact ⟨_, rfl⟩
  | cons ty rest ih =>
    intro u
    rw [codeForFuncs]
    refine bind_total (arbitraryFuncBody_total hvt allowInvalid _ u) ?_
    intro c u3 _
    refine bind_total (ih u3) ?_
    intro cs u4 _
    exact ⟨_, rfl⟩

theorem arbitraryCode_total {allowInvalid : Bool} {m : Module}
    (hvt : m.valtypes ≠ []) (u : U) :
    ∃ r, arbitraryCode allowInvalid m u = some r := by
  unfold arbitraryCode
  refine bind_total (codeForFuncs_total hvt m.funcs u) ?_
  intro cd u3 _
  exact ⟨_, rfl⟩

/-! Composite lemmas about the whole pipeline. -/

theorem exportBound_congr {m1 m2 : Module} (hi : m1.imports = m2.imports)
    (hf : m1.funcs = m2.funcs) (ht : m1.tables = m2.tables)
    (hm : m1.memories = m2.memories) (hg : m1.globals = m2.globals)
    {e : Export} (h : exportBound m1 e) : exportBound m2 e := by
  cases e with
  | func i =>
    simp only [exportBound, funcTotal, funcImports] at h ⊢
    rw [← hi, ← hf]
    exact h
  | table i =>
    simp only [exportBound, tableTotal, tableImports] at h ⊢
    rw [← hi, ← ht]
    exact h
  | memory i =>
    simp only [exportBound, memTotal, memoryImports] at h ⊢
    rw [← hi, ← hm]
    exact h
  | global i =>
    simp only [exportBound, globalTotal, globalImports] at h ⊢
    rw [← hi, ← hg]
    exact h

theorem seedValtypes_ne_nil (cfg : Config) : (seedValtypes cfg).valtypes ≠ [] := by
  unfold seedValtypes
  split <;> simp

theorem build_total (cfg : Config) (flag : Bool) (u : U) :
    ∃ r, build cfg flag u = some r := by
  unfold build
  have hvt0 := seedValtypes_ne_nil cfg
  refine bind_total (arbitraryTypes_total hvt0 u) ?_
  intro m1 u1 h1
  obtain ⟨ts, hm1⟩ := arbitraryTypes_run h1
  have hvt1 : m1.valtypes ≠ [] := by rw [hm1]; exact hvt0
  refine bind_total (arbitraryImports_total hvt1 u1) ?_
  intro m2 u2 h2
  have hmem1 : memoryImports m1 ≤ cfg.maxMemories := by
    rw [hm1]
    exact Nat.zero_le _
  obtain ⟨⟨imps, hm2⟩, _⟩ := arbitraryImports_run h2 hmem1
  have hvt2 : m2.valtypes ≠ [] := by rw [hm2, hm1]; exact hvt0
  refine bind_total (arbitraryFuncs_total m2 u2) ?_
  intro m3 u3 h3
  have hfpre : ∀ t ∈ m2.funcs, t < m2.types.length := by
    intro t ht
    rw [hm2, hm1] at ht
    exact absurd (show t ∈ ([] : List Nat) from ht) (List.not_mem_nil t)
  obtain ⟨⟨fs, hm3⟩, _⟩ := arbitraryFuncs_run h3 hfpre
  have hvt3 : m3.valtypes ≠ [] := by rw [hm3, hm2, hm1]; exact hvt0
  refine bind_total (arbitraryTables_total m3 u3) ?_
  intro m4 u4 h4
  obtain ⟨tbs, hm4⟩ := arbitraryTables_run h4
  have hvt4 : m4.valtypes ≠ [] := by rw [hm4, hm3, hm2, hm1]; exact hvt0
  refine bind_total (arbitraryMemories_total m4 u4) ?_
  intro m5 u5 h5
  obtain ⟨⟨ms, hm5⟩, _⟩ := arbitraryMemories_run h5
  have hvt5 : m5.valtypes ≠ [] := by rw [hm5, hm4, hm3, hm2, hm1]; exact hvt0
  refine bind_total (arbitraryGlobals_total hvt5 u5) ?_
  intro m6 u6 h6
  have hgpre : ∀ g ∈ m5.globals, ∀ i, g.expr = Instruction.globalGet i →
      i < globalImports m5 := by
    intro g hg
    rw [hm5, hm4, hm3, hm2, hm1] at hg
    exact absurd (show g ∈ ([] : List Global) from hg) (List.not_mem_nil g)
  obtain ⟨⟨gls, hm6⟩, _⟩ := arbitraryGlobals_run h6 hgpre
  have hvt6 : m6.valtypes ≠ [] := by rw [hm6, hm5, hm4, hm3, hm2, hm1]; exact hvt0
  refine bind_total (arbitraryExports_total m6 u6) ?_
  intro m7 u7 h7
  have hexpre : m6.exports = [] := by rw [hm6, hm5, hm4, hm3, hm2, hm1]; rfl
  obtain ⟨⟨exs, hm7⟩, _⟩ := arbitraryExports_run h7 hexpre
  have hvt7 : m7.valtypes ≠ [] := by
    rw [hm7, hm6, hm5, hm4, hm3, hm2, hm1]; exact hvt0
  refine bind_total (arbitraryStart_total m7 u7) ?_
  intro m8 u8 h8
  have hstpre : m7.start = none := by
    rw [hm7, hm6, hm5, hm4, hm3, hm2, hm1]; rfl
  obtain ⟨⟨st, hm8⟩, _⟩ := arbitraryStart_run h8 hstpre
  have hvt8 : m8.valtypes ≠ [] := by
    rw [hm8, hm7, hm6, hm5, hm4, hm3, hm2, hm1]; exact hvt0
  refine bind_total (arbitraryElems_total cfg m8 u8) ?_
  intro m9 u9 h9
  have helpre : m8.elems = [] := by
    rw [hm8, hm7, hm6, hm5, hm4, hm3, hm2, hm1]; rfl
  obtain ⟨⟨els, hm9⟩, _⟩ := arbitraryElems_run h9 helpre
  have hvt9 : m9.valtypes ≠ [] := by
    rw [hm9, hm8, hm7, hm6, hm5, hm4, hm3, hm2, hm1]; exact hvt0
  refine bind_total (arbitraryData_total cfg m9 u9) ?_
  intro m10 u10 h10
  have hdpre : m9.data = [] := by
    rw [hm9, hm8, hm7, hm6, hm5, hm4, hm3, hm2, hm1]; rfl
  obtain ⟨⟨ds, hm10⟩, _⟩ := arbitraryData_run h10 hdpre
  have hvt10 : m10.valtypes ≠ [] := by
    rw [hm10, hm9, hm8, hm7, hm6, hm5, hm4, hm3, hm2, hm1]; exact hvt0
  exact arbitraryCode_total hvt10 u10

theorem build_run {cfg : Config} {flag : Bool} {u v : U} {m : Module}
    (h : build cfg flag u = some (m, v)) :
    indexInvariant m ∧ dataInvariant cfg m ∧
      (m.exports.map Prod.fst).Nodup ∧
      memTotal m ≤ cfg.maxMemories := by
  unfold build at h
  simp only [bind_eq_some] at h
  obtain ⟨m1, u1, h1, m2, u2, h2, m3, u3, h3, m4, u4, h4, m5, u5, h5,
    m6, u6, h6, m7, u7, h7, m8, u8, h8, m9, u9, h9, m10, u10, h10, h11⟩ := h
  obtain ⟨ts, hm1⟩ := arbitraryTypes_run h1
  have e1i : m1.imports = [] := by rw [hm1]; rfl
  have hmem1 : memoryImports m1 ≤ cfg.maxMemories := by
    simp [memoryImports, e1i]
  obtain ⟨⟨imps, hm2⟩, hmemle⟩ := arbitraryImports_run h2 hmem1
  have e2i : m2.imports = imps := by rw [hm2]
  have e2f : m2.funcs = [] := by rw [hm2, hm1]; rfl
  have hfpre : ∀ t ∈ m2.funcs, t < m2.types.length := by
    rw [e2f]
    intro t ht
    cases ht
  obtain ⟨⟨fs, hm3⟩, hfuncs⟩ := arbitraryFuncs_run h3 hfpre
  have e3f : m3.funcs = fs := by rw [hm3]
  have e3t : m3.types = ts := by rw [hm3, hm2, hm1]
  obtain ⟨tbs, hm4⟩ := arbitraryTables_run h4
  have e4i : m4.imports = imps := by rw [hm4, hm3, e2i]
  have e4m : m4.memories = [] := by rw [hm4, hm3, hm2, hm1]; rfl
  obtain ⟨⟨ms, hm5⟩, hmslen⟩ := arbitraryMemories_run h5
  have e5i : m5.imports = imps := by rw [hm5, e4i]
  have e5m : m5.memories = ms := by rw [hm5]
  have e5g : m5.globals = [] := by rw [hm5, hm4, hm3, hm2, hm1]; rfl
  have hgpre : ∀ g ∈ m5.globals, ∀ i, g.expr = Instruction.globalGet i →
      i < globalImports m5 := by
    rw [e5g]
    intro g hg
    cases hg
  obtain ⟨⟨gls, hm6⟩, hglob⟩ := arbitraryGlobals_run h6 hgpre
  have e6i : m6.imports = imps := by rw [hm6, e5i]
  have e6f : m6.funcs = fs := by rw [hm6, hm5, hm4, e3f]
  have e6t : m6.tables = tbs := by rw [hm6, hm5, hm4]
  have e6m : m6.memories = ms := by rw [hm6, e5m]
  have e6g : m6.globals = gls := by rw [hm6]
  have e6e : m6.exports = [] := by rw [hm6, hm5, hm4, hm3, hm2, hm1]; rfl
  obtain ⟨⟨exs, hm7⟩, hnodup, hexbd⟩ := arbitraryExports_run h7 e6e
  have e7i : m7.imports = imps := by rw [hm7, e6i]
  have e7f : m7.funcs = fs := by rw [hm7, e6f]
  have e7e : m7.exports = exs := by rw [hm7]
  have e7s : m7.start = none := by rw [hm7, hm6, hm5, hm4, hm3, hm2, hm1]; rfl
  obtain ⟨⟨st, hm8⟩, hstart⟩ := arbitraryStart_run h8 e7s
  have e8i : m8.imports = imps := by rw [hm8, e7i]
  have e8f : m8.funcs = fs := by rw [hm8, e7f]
  have e8s : m8.start = st := by rw [hm8]
  have e8e : m8.elems = [] := by rw [hm8, hm7, hm6, hm5, hm4, hm3, hm2, hm1]; rfl
  obtain ⟨⟨els, hm9⟩, helems⟩ := arbitraryElems_run h9 e8e
  have e9i : m9.imports = imps := by rw [hm9, e8i]
  have e9m : m9.memories = ms := by rw [hm9, hm8, hm7, e6m]
  have e9e : m9.elems = els := by rw [hm9]
  have e9d : m9.data = [] := by
    rw [hm9, hm8, hm7, hm6, hm5, hm4, hm3, hm2, hm1]
    rfl
  obtain ⟨⟨ds, hm10⟩, hdata, hdem⟩ := arbitraryData_run h10 e9d
  have e10d : m10.data = ds := by rw [hm10]
  obtain ⟨cd, hm⟩ := arbitraryCode_run h11
  have emi : m.imports = imps := by rw [hm, hm10, e9i]
  have emt : m.types = ts := by
    rw [hm, hm10, hm9, hm8, hm7, hm6, hm5, hm4, e3t]
  have emf : m.funcs = fs := by rw [hm, hm10, hm9, e8f]
  have emtb : m.tables = tbs := by rw [hm, hm10, hm9, hm8, hm7, e6t]
  have emm : m.memories = ms := by rw [hm, hm10, e9m]
  have emg : m.globals = gls := by rw [hm, hm10, hm9, hm8, hm7, e6g]
  have eme : m.exports = exs := by rw [hm, hm10, hm9, hm8, e7e]
  have ems : m.start = st := by rw [hm, hm10, hm9, e8s]
  have emel : m.elems = els := by rw [hm, hm10, e9e]
  have emd : m.data = ds := by rw [hm, e10d]
  have cfunc7 : funcTotal m7 = funcTotal m := by
    simp only [funcTotal, funcImports]
    rw [e7i, e7f, emi, emf]
  have cfunc8 : funcImports m8 + m8.funcs.length = funcTotal m := by
    simp only [funcTotal, funcImports]
    rw [e8i, e8f, emi, emf]
  have cglob5 : globalImports m5 ≤ globalTotal m := by
    simp only [globalTotal, globalImports]
    rw [e5i, emi]
    exact Nat.le_add_right _ _
  have cglob8 : globalImports m8 ≤ globalTotal m := by
    simp only [globalTotal, globalImports]
    rw [e8i, emi]
    exact Nat.le_add_right _ _
  have cglob9 : globalImports m9 ≤ globalTotal m := by
    simp only [globalTotal, globalImports]
    rw [e9i, emi]
    exact Nat.le_add_right _ _
  have cmem9 : m9.memories.length + memoryImports m9 = memTotal m := by
    simp only [memTotal, memoryImports]
    rw [e9i, e9m, emi, emm]
    omega
  refine ⟨⟨?_, ?_, ?_, ?_, ?_, ?_⟩, ⟨?_, ?_⟩, ?_, ?_⟩
  · rw [e3f, e3t] at hfuncs
    rw [emf, emt]
    exact hfuncs
  · rw [e7e] at hexbd
    rw [eme]
    intro e he
    refine exportBound_congr ?_ ?_ ?_ ?_ ?_ (hexbd e he)
    · rw [e6i, emi]
    · rw [e6f, emf]
    · rw [e6t, emtb]
    · rw [e6m, emm]
    · rw [e6g, emg]
  · rw [e8s] at hstart
    rw [ems]
    intro f hf
    have hlt := hstart f hf
    omega
  · rw [e6g] at hglob
    rw [emg]
    intro g hg i hi
    have hlt := hglob g hg i hi
    omega
  · rw [e9e] at helems
    rw [emel]
    intro seg hseg
    obtain ⟨hf1, hf2, hf3⟩ := helems seg hseg
    refine ⟨?_, ?_, ?_⟩
    · intro fs2 hfs2 i hi
      have hlt := hf1 fs2 hfs2 i hi
      omega
    · intro es hes o ho i hoi
      have hlt := hf2 es hes o ho i hoi
      omega
    · intro t off hk i hi
      have hlt := hf3 t off hk i hi
      omega
  · rw [e10d] at hdata
    rw [emd]
    intro d hd mi off hk
    have h3 := (hdata d hd).2.2 mi off hk
    refine ⟨?_, ?_⟩
    · have h4 := h3.1
      omega
    · intro g hg
      have h5 := h3.2 g hg
      omega
  · rw [e10d] at hdata
    rw [emd]
    intro d hd
    refine ⟨?_, ?_⟩
    · intro hz
      cases hkc : d.kind with
      | passive => rfl
      | active mi off =>
        exfalso
        have h3 := (hdata d hd).2.2 mi off hkc
        have h4 := h3.1
        omega
    · exact (hdata d hd).1
  · intro hb hz
    rw [emd, ← e10d]
    refine hdem hb ?_
    omega
  · rw [e7e] at hnodup
    rw [eme]
    exact hnodup
  · have d1 : memoryImports m2 = memoryImports m := by
      simp only [memoryImports]
      rw [e2i, emi]
    have d2 : memoryImports m4 = memoryImports m := by
      simp only [memoryImports]
      rw [e4i, emi]
    rw [e5m, e4m] at hmslen
    simp only [List.length_nil] at hmslen
    have d3 : memTotal m = memoryImports m + m.memories.length := rfl
    rw [emm] at d3
    omega

/-! Claim theorems. -/

/-- C1: for every finite input byte buffer, including the empty buffer, and
every configuration, building a module (as invoked through the Arbitrary
implementations of Module and MaybeInvalidModule) completes and returns a
finished module; exhaustion of the byte source is never surfaced as an
error and no draw site fails. -/
theorem claim_C1 :
    (∀ (cfg : Config) (allowInvalid : Bool) (u : U),
      (build cfg allowInvalid u).isSome) ∧
    (∀ u : U, (moduleArbitrary u).isSome) ∧
    (∀ u : U, (maybeInvalidModuleArbitrary u).isSome) := by
  have hb : ∀ (cfg : Config) (ai : Bool) (u : U), (build cfg ai u).isSome := by
    intro cfg ai u
    obtain ⟨r, hr⟩ := build_total cfg ai u
    rw [hr]
    rfl
  exact ⟨hb, fun u => hb defaultConfig false u, fun u => hb defaultConfig true u⟩

/-- C2: two runs of module generation on identical input byte buffers with
identical configurations produce structurally identical modules and, for
any encoder function, byte-identical encoded output. -/
theorem claim_C2 (cfg1 cfg2 : Config) (allowInvalid : Bool) (u1 u2 : U)
    (hc : cfg1 = cfg2) (hu : u1 = u2) :
    build cfg1 allowInvalid u1 = build cfg2 allowInvalid u2 ∧
    ∀ (enc : Module → List Nat) (m1 : Module) (r1 : U) (m2 : Module) (r2 : U),
      build cfg1 allowInvalid u1 = some (m1, r1) →
      build cfg2 allowInvalid u2 = some (m2, r2) →
      m1 = m2 ∧ enc m1 = enc m2 := by
  subst hc
  subst hu
  refine ⟨rfl, ?_⟩
  intro enc m1 r1 m2 r2 hb1 hb2
  rw [hb1] at hb2
  simp only [Option.some.injEq, Prod.mk.injEq] at hb2
  obtain ⟨h1, h2⟩ := hb2
  subst h1
  exact ⟨rfl, rfl⟩

/-- C2 witness: the two-run determinism theorem applied at the default
configuration and the empty byte buffer. -/
theorem claim_C2_witness :
    build defaultConfig false [] = build defaultConfig false [] ∧
    ∀ (enc : Module → List Nat) (m1 : Module) (r1 : U) (m2 : Module) (r2 : U),
      build defaultConfig false [] = some (m1, r1) →
      build defaultConfig false [] = some (m2, r2) →
      m1 = m2 ∧ enc m1 = enc m2 :=
  claim_C2 defaultConfig defaultConfig false [] [] rfl rfl

/-- C3: in every generated module, every stored index named by the claim
(local function type indices, export target indices, the start index,
element-segment function indices, constant-initializer global.get indices,
active data-segment memory indices) is strictly below the total count of
the corresponding entity kind. -/
theorem claim_C3 (cfg : Config) (allowInvalid : Bool) (u v : U) (m : Module)
    (h : build cfg allowInvalid u = some (m, v)) : indexInvariant m :=
  (build_run h).1

set_option maxHeartbeats 1000000 in
/-- C3 witness: the index invariant discharged on a concrete run that
declares a type, a function, two exports and a code body. -/
theorem claim_C3_witness : indexInvariant exportCollisionModule :=
  claim_C3 defaultConfig false exportCollisionBytes [] exportCollisionModule
    (by decide)

/-- C4: the combined number of imported and locally defined memories never
exceeds the configured memory cap, hence never exceeds 1 under the
modelled default configuration used by the Module and MaybeInvalidModule
entry points. -/
theorem claim_C4 :
    (∀ (cfg : Config) (allowInvalid : Bool) (u v : U) (m : Module),
      build cfg allowInvalid u = some (m, v) → memTotal m ≤ cfg.maxMemories) ∧
    (∀ (u v : U) (m : Module), moduleArbitrary u = some (m, v) → memTotal m ≤ 1) ∧
    (∀ (u v : U) (m : Module),
      maybeInvalidModuleArbitrary u = some (m, v) → memTotal m ≤ 1) := by
  have hg : ∀ (cfg : Config) (ai : Bool) (u v : U) (m : Module),
      build cfg ai u = some (m, v) → memTotal m ≤ cfg.maxMemories :=
    fun cfg ai u v m h => (build_run h).2.2.2
  exact ⟨hg, fun u v m h => hg defaultConfig false u v m h,
    fun u v m h => hg defaultConfig true u v m h⟩

set_option maxHeartbeats 1000000 in
/-- C4 witness: the memory cap discharged on a concrete run under the
bulk-memory configuration. -/
theorem claim_C4_witness : memTotal passiveDataModule ≤ bulkConfig.maxMemories :=
  claim_C4.1 bulkConfig false passiveDataBytes [] passiveDataModule (by decide)

set_option maxHeartbeats 1000000 in
/-- C5 counterexample: a generated module with one imported function and no
locally defined function (so at least one function exists in the combined
index space) whose export candidate kind list does not contain the Func
kind, refuting the imported-or-locally-defined reading of the claim. -/
theorem claim_C5_counterexample :
    build defaultConfig false importOnlyFuncBytes =
      some (importOnlyFuncModule, []) ∧
    0 < funcTotal importOnlyFuncModule ∧
    ExportChoice.func ∉ exportKindChoices importOnlyFuncModule :=
  ⟨by decide, by decide, by decide⟩

/-- C5 (amended): the export candidate kind list, built once per module,
contains Func iff at least one locally defined function exists, Table iff
at least one table (imported or locally defined) exists, Memory iff at
least one memory (imported or locally defined) exists, and Global iff at
least one locally defined global exists. -/
theorem claim_C5_amended (s : Module) :
    (ExportChoice.func ∈ exportKindChoices s ↔ s.funcs ≠ []) ∧
    (ExportChoice.table ∈ exportKindChoices s ↔
      0 < tableImports s ∨ s.tables ≠ []) ∧
    (ExportChoice.memory ∈ exportKindChoices s ↔
      0 < memoryImports s ∨ s.memories ≠ []) ∧
    (ExportChoice.global ∈ exportKindChoices s ↔ s.globals ≠ []) := by
  unfold exportKindChoices
  split_ifs <;> simp_all

/-- C5 witness: the amended candidate-list characterization instantiated at
a concrete generated module. -/
theorem claim_C5_witness :
    ExportChoice.func ∈ exportKindChoices exportCollisionModule ↔
      exportCollisionModule.funcs ≠ [] :=
  (claim_C5_amended exportCollisionModule).1

/-- C6: export names of every generated module are pairwise distinct, and
the deduplication loop stores the drawn name extended with the decimal
digits of the current export-name-set size, appended repeatedly until the
result is unique (the name is stored unchanged when it does not collide). -/
theorem claim_C6 :
    (∀ (cfg : Config) (allowInvalid : Bool) (u v : U) (m : Module),
      build cfg allowInvalid u = some (m, v) →
      (m.exports.map Prod.fst).Nodup) ∧
    (∀ (name : Name) (names : List Name),
      uniquify name names ∉ names ∧
      (name ∉ names → uniquify name names = name) ∧
      ∃ k, uniquify name names =
          appendCopies name (natDecimalBytes names.length) k ∧
        ∀ j < k, appendCopies name (natDecimalBytes names.length) j ∈ names) := by
  constructor
  · intro cfg ai u v m h
    exact (build_run h).2.2.1
  · intro name names
    exact ⟨uniquify_not_mem name names, fun h => uniquify_eq_of_not_mem h,
      uniquify_char name names⟩

set_option maxHeartbeats 1000000 in
/-- C6 witness: a concrete run in which two exports draw the identical name
(the single byte 65) and the second stored name carries the numeric suffix
49, with the final export names distinct. -/
theorem claim_C6_witness :
    (exportCollisionModule.exports.map Prod.fst).Nodup ∧
    uniquify [65] [[65]] ∉ [[65]] :=
  ⟨claim_C6.1 defaultConfig false exportCollisionBytes [] exportCollisionModule
      (by decide),
    (claim_C6.2 [65] [[65]]).1⟩

/-- C7: in every generated module, every data segment is passive whenever
the total memory count is zero, a passive data segment occurs only with
bulk memory enabled, and with bulk memory disabled and zero memories no
data segment is generated at all. -/
theorem claim_C7 (cfg : Config) (allowInvalid : Bool) (u v : U) (m : Module)
    (h : build cfg allowInvalid u = some (m, v)) : dataInvariant cfg m :=
  (build_run h).2.1

set_option maxHeartbeats 1000000 in
/-- C7 witness: the data-segment discipline discharged on a concrete run
that generates one passive data segment with bulk memory enabled and zero
memories. -/
theorem claim_C7_witness : dataInvariant bulkConfig passiveDataModule :=
  claim_C7 bulkConfig false passiveDataBytes [] passiveDataModule (by decide)

set_option maxHeartbeats 1000000 in
/-- C8: on the empty input byte buffer generation succeeds and the
resulting module has zero types, imports, functions, tables, memories,
globals, exports, element segments, data segments, and no start
function. -/
theorem claim_C8 :
    moduleArbitrary [] = some (emptyBuildModule, []) ∧
    emptyBuildModule.types = [] ∧ emptyBuildModule.imports = [] ∧
    emptyBuildModule.funcs = [] ∧ emptyBuildModule.tables = [] ∧
    emptyBuildModule.memories = [] ∧ emptyBuildModule.globals = [] ∧
    emptyBuildModule.exports = [] ∧ emptyBuildModule.elems = [] ∧
    emptyBuildModule.data = [] ∧ emptyBuildModule.start = none :=
  ⟨by decide, rfl, rfl, rfl, rfl, rfl, rfl, rfl, rfl, rfl, rfl⟩

/-- C9: every Limits value produced by Limits::limited satisfies min ≤ cap
and, whenever the optional max is present, min ≤ max ≤ cap; in particular
every memory type drawn by MemoryType::arbitrary satisfies the bounds with
cap 65536. -/
theorem claim_C9 :
    (∀ (cap : Nat) (u v : U) (l : Limits), Limits.limited cap u = some (l, v) →
      l.min ≤ cap ∧ ∀ mx, l.max = some mx → l.min ≤ mx ∧ mx ≤ cap) ∧
    (∀ (u v : U) (mt : MemoryType), memoryTypeArbitrary u = some (mt, v) →
      mt.limits.min ≤ 65536 ∧ ∀ mx, mt.limits.max = some mx →
        mt.limits.min ≤ mx ∧ mx ≤ 65536) := by
  have hgen : ∀ (cap : Nat) (u v : U) (l : Limits),
      Limits.limited cap u = some (l, v) →
      l.min ≤ cap ∧ ∀ mx, l.max = some mx → l.min ≤ mx ∧ mx ≤ cap := by
    intro cap u v l h
    unfold Limits.limited at h
    rw [bind_eq_some] at h
    obtain ⟨mn, u3, hmn, h⟩ := h
    have hmnb := (intInRange_bounds hmn).2
    rw [bind_eq_some] at h
    obtain ⟨hasMax, u4, hhm, h⟩ := h
    cases hasMax with
    | false =>
      simp only [Bool.false_eq_true, if_false, pure_run, Option.some.injEq,
        Prod.mk.injEq] at h
      obtain ⟨h1, h2⟩ := h
      subst h1
      refine ⟨hmnb, ?_⟩
      intro mx hmx
      cases hmx
    | true =>
      simp only [if_true] at h
      by_cases hmc : mn = cap
      · rw [if_pos hmc, pure_run] at h
        simp only [Option.some.injEq, Prod.mk.injEq] at h
        obtain ⟨h1, h2⟩ := h
        subst h1
        refine ⟨hmnb, ?_⟩
        intro mx hmx
        have hcx : some cap = some mx := hmx
        cases hcx
        exact ⟨hmnb, Nat.le_refl cap⟩
      · rw [if_neg hmc] at h
        simp only [bind_eq_some, pure_run, Option.some.injEq,
          Prod.mk.injEq] at h
        obtain ⟨mx0, u5, hmx0, h1, h2⟩ := h
        subst h1
        have hb := intInRange_bounds hmx0
        refine ⟨hmnb, ?_⟩
        intro mx hmx
        have hcx : some mx0 = some mx := hmx
        cases hcx
        exact ⟨hb.1, hb.2⟩
  refine ⟨hgen, ?_⟩
  intro u v mt h
  unfold memoryTypeArbitrary at h
  simp only [bind_eq_some, pure_run, Option.some.injEq, Prod.mk.injEq] at h
  obtain ⟨l, u3, hl, h1, h2⟩ := h
  subst h1
  exact hgen 65536 u u3 l hl

/-- C9 witness: the limits bounds discharged on the memory cap 65536 at the
empty byte buffer. -/
theorem claim_C9_witness :
    ({ min := 0, max := none } : Limits).min ≤ 65536 ∧
    ∀ mx, ({ min := 0, max := none } : Limits).max = some mx →
      ({ min := 0, max := none } : Limits).min ≤ mx ∧ mx ≤ 65536 :=
  claim_C9.1 65536 [] [] { min := 0, max := none } (by decide)

/-- C10: whenever reference types are enabled, every table type generated
by arbitrary_table_type has element type funcref; an externref table can
only be produced when reference types are disabled. -/
theorem claim_C10 (cfg : Config) (u v : U) (tt : TableType)
    (h : arbitraryTableType cfg u = some (tt, v)) :
    (cfg.referenceTypesEnabled = true → tt.elemTy = ValType.funcRef) ∧
    (tt.elemTy = ValType.externRef → cfg.referenceTypesEnabled = false) := by
  unfold arbitraryTableType at h
  simp only [bind_eq_some, pure_run, Option.some.injEq, Prod.mk.injEq] at h
  obtain ⟨ety, u3, hety, lims, u4, hlims, h1, h2⟩ := h
  subst h1
  unfold arbitraryTableElemTy at hety
  cases hrt : cfg.referenceTypesEnabled
  · constructor
    · intro hcontra
      cases hcontra
    · intro _
      rfl
  · rw [if_pos hrt, pure_run] at hety
    simp only [Option.some.injEq, Prod.mk.injEq] at hety
    obtain ⟨he, _⟩ := hety
    subst he
    constructor
    · intro _
      rfl
    · intro hbad
      simp at hbad

/-- C10 witness: the table element-type property discharged with reference
types enabled at the empty byte buffer. -/
theorem claim_C10_witness :
    (refConfig.referenceTypesEnabled = true →
      ({ limits := { min := 0, max := none },
         elemTy := ValType.funcRef } : TableType).elemTy = ValType.funcRef) ∧
    (({ limits := { min := 0, max := none },
        elemTy := ValType.funcRef } : TableType).elemTy = ValType.externRef →
      refConfig.referenceTypesEnabled = false) :=
  claim_C10 refConfig [] []
    { limits := { min := 0, max := none }, elemTy := ValType.funcRef }
    (by decide)


end WasmSmith
